import Mathlib

/-
  Verification of the File_Sync repository (PedroACFerreira/File_Sync).

  The repository contains two implementations of a one-way folder
  synchronizer:
    - src/Simple/file_sync_simple.py   (sequential simple variant)
    - src/GUI/file_sync_extended.py    (extended variant with optional
      multiprocessing)

  This file gives a shallow embedding of the synchronization engine:
  the filesystem is modelled as a finite tree of named entries, where a
  file carries its byte content and its modification timestamp, and a
  directory carries the size/mtime pair reported by os.stat together
  with its children.  Paths are lists of name components, relative to a
  tree root.  The xxhash digest is modelled by an arbitrary function
  from byte content to a number, mirroring that calculate_xxhash is a
  pure function of the byte content of the file.  Exceptions raised by
  filesystem operations (copying onto a directory, hashing a directory,
  os.makedirs blocked by a file) are modelled with Option: none is a
  propagated exception.

  Directory stat metadata is modelled as a fixed attribute of the
  directory node; the model does not track mtime updates that a real
  filesystem applies to a directory when entries are created or removed
  inside it.
-/

/-- A filesystem tree: a file with byte content and mtime, or a
directory with its stat size/mtime and a list of named children.
os.walk and the engine treat the children of a directory as an ordered
list. -/
inductive FSTree where
  | file (content : List Nat) (mtime : Nat)
  | dir (sz : Nat) (mt : Nat) (children : List (String × FSTree))
deriving Repr

abbrev RPath := List String

/-- Find the child with the given name in a children list (a real
directory has at most one entry per name). -/
def childLookup : List (String × FSTree) → String → Option FSTree
  | [], _ => none
  | (m, t) :: rest, n => if m = n then some t else childLookup rest n

/-- Resolve a relative path inside a tree, as os.path.exists / os.stat
resolve a path: descending into a file fails. -/
def FSTree.lookup : FSTree → RPath → Option FSTree
  | t, [] => some t
  | .file _ _, _ :: _ => none
  | .dir _ _ cs, n :: p =>
      match childLookup cs n with
      | none => none
      | some t => t.lookup p

/-- The (st_size, st_mtime) pair that os.stat reports for an entry.
For a file the size is the length of its content; a directory reports
its own stat metadata. -/
def statPair : FSTree → Nat × Nat
  | .file c m => (c.length, m)
  | .dir s m _ => (s, m)

/-- modified_check of file_sync_extended.py (lines 129-142): returns
False when the replica entry does not exist, False when size or mtime
differs, True (considered unchanged) otherwise.  The source file is
given by its content and mtime; the replica argument is the result of
looking up the mirrored path. -/
def modified_check (srcContent : List Nat) (srcMtime : Nat)
    (replicaEntry : Option FSTree) : Bool :=
  match replicaEntry with
  | none => false
  | some e =>
      if srcContent.length ≠ (statPair e).1 ∨ srcMtime ≠ (statPair e).2 then
        false
      else
        true

/-- modified_check of file_sync_simple.py (lines 121-134): same test,
but the result is the pair [unchanged, existed-before] returned as a
two-element list in the source. -/
def modified_check_s (srcContent : List Nat) (srcMtime : Nat)
    (replicaEntry : Option FSTree) : Bool × Nat :=
  match replicaEntry with
  | none => (false, 0)
  | some e =>
      if srcContent.length ≠ (statPair e).1 ∨ srcMtime ≠ (statPair e).2 then
        (false, 1)
      else
        (true, 1)

/-- The per-file planning decision of sync_directory (extended lines
161-170, simple lines 154-164), instrumented with the number of
calculate_xxhash calls it performs.  hash is the xxhash digest as a
pure function of byte content.  Returns none when the code would raise:
hashing a replica entry that is a directory.  The Bool is whether the
file is queued for copy. -/
def fileNeedsCopy (strict : Bool) (hash : List Nat → Nat)
    (srcContent : List Nat) (srcMtime : Nat)
    (replicaEntry : Option FSTree) : Option (Bool × Nat) :=
  if strict then
    if ¬ modified_check srcContent srcMtime replicaEntry then
      some (true, 0)
    else
      match replicaEntry with
      | some (.file rc _) => some (decide (hash srcContent ≠ hash rc), 2)
      | _ => none
  else
    some (¬ modified_check srcContent srcMtime replicaEntry, 0)

/-- C4: the non-strict change check needs-copy result: always
needs-copy when no replica entry exists; otherwise needs-copy iff the
sizes differ or the mtimes differ, by exact equality.  The simple
variant's check agrees with the extended one in its first component. -/
theorem modified_check_spec (c : List Nat) (mt : Nat) :
    modified_check c mt none = false ∧
    (∀ e : FSTree,
      (modified_check c mt (some e) = false ↔
        (c.length ≠ (statPair e).1 ∨ mt ≠ (statPair e).2))) ∧
    (∀ r : Option FSTree, (modified_check_s c mt r).1 = modified_check c mt r) := by
  refine ⟨rfl, fun e => ?_, fun r => ?_⟩
  · unfold modified_check
    by_cases h : c.length ≠ (statPair e).1 ∨ mt ≠ (statPair e).2 <;> simp [h]
  · cases r with
    | none => rfl
    | some e =>
        unfold modified_check modified_check_s
        by_cases h : c.length ≠ (statPair e).1 ∨ mt ≠ (statPair e).2 <;> simp [h]

/-- Witness for modified_check_spec at a concrete input. -/
theorem modified_check_spec_witness :
    modified_check [1, 2] 7 (some (FSTree.file [3, 4] 7)) = false ↔
      (([1, 2] : List Nat).length ≠ (statPair (FSTree.file [3, 4] 7)).1 ∨
        7 ≠ (statPair (FSTree.file [3, 4] 7)).2) :=
  (modified_check_spec [1, 2] 7).2.1 (FSTree.file [3, 4] 7)

/-- C3: in strict mode, with an existing replica entry: a file whose
metadata check reports changed is queued directly with no digest
computed; a file whose metadata check reports unchanged has both
digests computed (two calculate_xxhash calls) and is queued iff the
digests differ. -/
theorem strict_check_spec (hash : List Nat → Nat) (c : List Nat) (mt : Nat)
    (e : FSTree) :
    (modified_check c mt (some e) = false →
      fileNeedsCopy true hash c mt (some e) = some (true, 0)) ∧
    (∀ rc rm, e = .file rc rm → modified_check c mt (some e) = true →
      fileNeedsCopy true hash c mt (some e) =
        some (decide (hash c ≠ hash rc), 2)) := by
  constructor
  · intro h
    unfold fileNeedsCopy
    simp [h]
  · intro rc rm he h
    subst he
    unfold fileNeedsCopy
    simp [h]

/-- Witness for strict_check_spec: a metadata-changed file is queued
with no digests, and a metadata-unchanged file with differing digests
is queued after two digest computations. -/
theorem strict_check_spec_witness :
    fileNeedsCopy true (fun l => l.length) [1, 2] 7
        (some (FSTree.file [3] 7)) = some (true, 0) ∧
    fileNeedsCopy true (fun l => List.sum l) [1, 2] 7
        (some (FSTree.file [3, 4] 7)) = some (true, 2) := by
  constructor
  · exact (strict_check_spec (fun l => l.length) [1, 2] 7
      (FSTree.file [3] 7)).1 (by decide)
  · have h := (strict_check_spec (fun l => List.sum l) [1, 2] 7
      (FSTree.file [3, 4] 7)).2 [3, 4] 7 rfl (by decide)
    simpa using h

/-
  copy_validate (extended lines 175-203, simple lines 167-197):

      retry_count = 0
      max_retries = 3
      while retry_count <= max_retries:
          try:
              shutil.copy2(original_file, replica_file)
              source_hash = calculate_xxhash(original_file)
              replica_hash = calculate_xxhash(replica_file)
              if source_hash == replica_hash:
                  return success-message
              log.error(hash-mismatch); retry_count += 1
          except Exception: log.error(copy-error); retry_count += 1
      return failure-message

  One iteration of the loop (one attempt) either raises an exception
  somewhere in the copy or the hashing (caught by the except clause),
  or completes the copy-and-hash step producing the two digests.  The
  environment behavior of attempt number k is given by an oracle
  function from the attempt index to an AttemptResult.
-/

/-- What the environment does on one attempt of the retry loop of
copy_validate: the copy or hashing step raises an exception, or the
copy completes and the two digests are computed. -/
inductive AttemptResult where
  | copyError
  | copied (srcDigest dstDigest : Nat)
deriving Repr, DecidableEq

/-- An attempt fails when it raises, or when the post-copy digests
mismatch. -/
def AttemptResult.fails : AttemptResult → Bool
  | .copyError => true
  | .copied s d => decide (s ≠ d)

/-- An attempt verifies when the copy completed and the post-copy
digests match. -/
def AttemptResult.ok : AttemptResult → Bool
  | .copyError => false
  | .copied s d => decide (s = d)

/-- The outcome of copy_validate: the success message, or the
failed-after-retries message. -/
inductive SyncOutcome where
  | succeeded
  | failedAfterRetries
deriving Repr, DecidableEq

/-- The retry loop of copy_validate.  k is the current retry_count;
fuel is the number of loop iterations the guard retry_count <= 3 still
allows, i.e. max_retries + 1 - retry_count, so the fuel-is-zero case is
exactly the loop guard turning false.  Alongside the outcome it returns
the total number of attempts performed (the final retry_count).  -/
def cvLoop (att : Nat → AttemptResult) : Nat → Nat → SyncOutcome × Nat
  | 0, k => (.failedAfterRetries, k)
  | fuel + 1, k =>
      match att k with
      | .copied s d =>
          if s = d then (.succeeded, k + 1)
          else cvLoop att fuel (k + 1)
      | .copyError => cvLoop att fuel (k + 1)

/-- copy_validate: run the retry loop from retry_count = 0 with the
guard allowing max_retries + 1 = 4 iterations. -/
def copy_validate (att : Nat → AttemptResult) : SyncOutcome × Nat :=
  cvLoop att 4 0

theorem cvLoop_fail (att : Nat → AttemptResult) :
    ∀ fuel k, (∀ j, j < fuel → (att (k + j)).fails = true) →
      cvLoop att fuel k = (.failedAfterRetries, k + fuel) := by
  intro fuel
  induction fuel with
  | zero => intro k _; simp [cvLoop]
  | succ n ih =>
      intro k h
      have h0 : (att k).fails = true := by simpa using h 0 (Nat.succ_pos n)
      have hrest : ∀ j, j < n → (att (k + 1 + j)).fails = true := by
        intro j hj
        have := h (j + 1) (by omega)
        simpa [Nat.add_assoc, Nat.add_comm 1 j] using this
      cases hatt : att k with
      | copyError =>
          simp only [cvLoop, hatt]
          rw [ih (k + 1) hrest]
          simp [Nat.add_assoc, Nat.add_comm 1 n]
      | copied s d =>
          have hne : s ≠ d := by
            have := h0
            rw [hatt] at this
            simpa [AttemptResult.fails] using this
          simp only [cvLoop, hatt, if_neg hne]
          rw [ih (k + 1) hrest]
          simp [Nat.add_assoc, Nat.add_comm 1 n]

theorem cvLoop_count_le (att : Nat → AttemptResult) :
    ∀ fuel k, (cvLoop att fuel k).2 ≤ k + fuel := by
  intro fuel
  induction fuel with
  | zero => intro k; simp [cvLoop]
  | succ n ih =>
      intro k
      cases hatt : att k with
      | copyError =>
          simp only [cvLoop, hatt]
          have := ih (k + 1)
          omega
      | copied s d =>
          by_cases hsd : s = d
          · simp only [cvLoop, hatt, if_pos hsd]
            omega
          · simp only [cvLoop, hatt, if_neg hsd]
            have := ih (k + 1)
            omega

theorem cvLoop_congr (a b : Nat → AttemptResult) :
    ∀ fuel k, (∀ j, k ≤ j → j < k + fuel → a j = b j) →
      cvLoop a fuel k = cvLoop b fuel k := by
  intro fuel
  induction fuel with
  | zero => intro k _; rfl
  | succ n ih =>
      intro k h
      have hk : a k = b k := h k (Nat.le_refl k) (by omega)
      have hrest : ∀ j, k + 1 ≤ j → j < k + 1 + n → a j = b j := by
        intro j h1 h2
        exact h j (by omega) (by omega)
      cases hatt : b k with
      | copyError =>
          simp only [cvLoop, hk, hatt]
          exact ih (k + 1) hrest
      | copied s d =>
          by_cases hsd : s = d
          · simp only [cvLoop, hk, hatt, if_pos hsd]
          · simp only [cvLoop, hk, hatt, if_neg hsd]
            exact ih (k + 1) hrest

/-- C2: a copy task whose copy-and-verify step fails on every try
performs exactly 4 total attempts (1 initial + 3 retries), returns the
FailedAfterRetries outcome, and never performs a fifth attempt: the
result of copy_validate depends only on the first four attempt
behaviors, and the attempt counter never exceeds 4. -/
theorem copy_validate_retry_bound (att : Nat → AttemptResult)
    (h : ∀ k, k < 4 → (att k).fails = true) :
    copy_validate att = (.failedAfterRetries, 4) ∧
    (∀ b, (∀ k, k < 4 → b k = att k) → copy_validate b = copy_validate att) ∧
    (∀ a : Nat → AttemptResult, (copy_validate a).2 ≤ 4) := by
  refine ⟨?_, ?_, ?_⟩
  · have := cvLoop_fail att 4 0 (by intro j hj; simpa using h j hj)
    simpa [copy_validate] using this
  · intro b hb
    exact cvLoop_congr b att 4 0 (by intro j _ hj; exact hb j (by omega))
  · intro a
    have := cvLoop_count_le a 4 0
    simpa [copy_validate] using this

/-- Witness for copy_validate_retry_bound: with an oracle that raises
on every attempt, copy_validate reports FailedAfterRetries after
exactly 4 attempts. -/
theorem copy_validate_retry_bound_witness :
    copy_validate (fun _ => AttemptResult.copyError) =
      (.failedAfterRetries, 4) :=
  (copy_validate_retry_bound (fun _ => AttemptResult.copyError)
    (fun _ _ => rfl)).1

theorem cvLoop_succeeded_iff (att : Nat → AttemptResult) :
    ∀ fuel k, ((cvLoop att fuel k).1 = .succeeded ↔
      ∃ j, j < fuel ∧ (att (k + j)).ok = true) := by
  intro fuel
  induction fuel with
  | zero =>
      intro k
      simp [cvLoop]
  | succ n ih =>
      intro k
      cases hatt : att k with
      | copyError =>
          simp only [cvLoop, hatt]
          rw [ih (k + 1)]
          constructor
          · rintro ⟨j, hj, hok⟩
            exact ⟨j + 1, by omega, by
              have : k + 1 + j = k + (j + 1) := by omega
              rwa [this] at hok⟩
          · rintro ⟨j, hj, hok⟩
            cases j with
            | zero =>
                exfalso
                simp only [Nat.add_zero] at hok
                rw [hatt] at hok
                simp [AttemptResult.ok] at hok
            | succ i =>
                exact ⟨i, by omega, by
                  have : k + (i + 1) = k + 1 + i := by omega
                  rwa [this] at hok⟩
      | copied s d =>
          by_cases hsd : s = d
          · simp only [cvLoop, hatt, if_pos hsd]
            constructor
            · intro _
              exact ⟨0, Nat.succ_pos n, by
                simp only [Nat.add_zero]
                rw [hatt]
                simp [AttemptResult.ok, hsd]⟩
            · intro _
              trivial
          · simp only [cvLoop, hatt, if_neg hsd]
            rw [ih (k + 1)]
            constructor
            · rintro ⟨j, hj, hok⟩
              exact ⟨j + 1, by omega, by
                have : k + 1 + j = k + (j + 1) := by omega
                rwa [this] at hok⟩
            · rintro ⟨j, hj, hok⟩
              cases j with
              | zero =>
                  exfalso
                  simp only [Nat.add_zero] at hok
                  rw [hatt] at hok
                  simp [AttemptResult.ok, hsd] at hok
              | succ i =>
                  exact ⟨i, by omega, by
                    have : k + (i + 1) = k + 1 + i := by omega
                    rwa [this] at hok⟩

theorem cvLoop_first_ok (att : Nat → AttemptResult) :
    ∀ fuel k j, j < fuel → (att (k + j)).ok = true →
      (∀ i, i < j → (att (k + i)).ok = false) →
      cvLoop att fuel k = (.succeeded, k + j + 1) := by
  intro fuel
  induction fuel with
  | zero => intro k j hj; omega
  | succ n ih =>
      intro k j hj hok hfirst
      cases j with
      | zero =>
          simp only [Nat.add_zero] at hok
          cases hatt : att k with
          | copyError => rw [hatt] at hok; simp [AttemptResult.ok] at hok
          | copied s d =>
              rw [hatt] at hok
              have hsd : s = d := by simpa [AttemptResult.ok] using hok
              simp [cvLoop, hatt, hsd]
      | succ i =>
          have h0 : (att k).ok = false := by
            simpa using hfirst 0 (Nat.succ_pos i)
          have hok' : (att (k + 1 + i)).ok = true := by
            have : k + (i + 1) = k + 1 + i := by omega
            rwa [this] at hok
          have hfirst' : ∀ i2, i2 < i → (att (k + 1 + i2)).ok = false := by
            intro i2 hi2
            have := hfirst (i2 + 1) (by omega)
            have heq : k + (i2 + 1) = k + 1 + i2 := by omega
            rwa [heq] at this
          have step := ih (k + 1) i (by omega) hok' hfirst'
          cases hatt : att k with
          | copyError =>
              simp only [cvLoop, hatt]
              rw [step]
              have : k + 1 + i = k + (i + 1) := by omega
              rw [this]
          | copied s d =>
              have hsd : s ≠ d := by
                rw [hatt] at h0
                simpa [AttemptResult.ok] using h0
              simp only [cvLoop, hatt, if_neg hsd]
              rw [step]
              have : k + 1 + i = k + (i + 1) := by omega
              rw [this]

/-- C8: copy_validate reports Succeeded iff some performed attempt
verifies (the post-copy digest of the destination equals the source
digest); it stops at the first verifying attempt with no further
attempts (the attempt count is that attempt's index plus one); and a
task none of whose four attempts verifies is reported
FailedAfterRetries, never Succeeded. -/
theorem copy_validate_success_iff (att : Nat → AttemptResult) :
    ((copy_validate att).1 = .succeeded ↔
      ∃ j, j < 4 ∧ (att j).ok = true) ∧
    (∀ j, j < 4 → (att j).ok = true → (∀ i, i < j → (att i).ok = false) →
      copy_validate att = (.succeeded, j + 1)) ∧
    ((∀ j, j < 4 → (att j).ok = false) →
      (copy_validate att).1 = .failedAfterRetries) := by
  refine ⟨?_, ?_, ?_⟩
  · have := cvLoop_succeeded_iff att 4 0
    simpa [copy_validate] using this
  · intro j hj hok hfirst
    have := cvLoop_first_ok att 4 0 j hj (by simpa using hok)
      (by intro i hi; simpa using hfirst i hi)
    simpa [copy_validate] using this
  · intro h
    have hf : ∀ j, j < 4 → (att (0 + j)).fails = true := by
      intro j hj
      have := h j hj
      cases hatt : att j with
      | copyError => simp [Nat.zero_add, hatt, AttemptResult.fails]
      | copied s d =>
          rw [hatt] at this
          simp only [AttemptResult.ok, decide_eq_true_eq] at this
          simp only [Nat.zero_add, hatt, AttemptResult.fails]
          simpa using this
    have := cvLoop_fail att 4 0 hf
    simp [copy_validate, this]

/-- Witness for copy_validate_success_iff: an oracle whose second
attempt verifies yields Succeeded with 2 attempts performed. -/
theorem copy_validate_success_iff_witness :
    copy_validate (fun k => if k = 1 then AttemptResult.copied 5 5
      else AttemptResult.copyError) = (.succeeded, 2) :=
  (copy_validate_success_iff _).2.1 1 (by decide) (by decide)
    (by
      intro i hi
      have h0 : i = 0 := by omega
      subst h0
      decide)

/-- C10: copy_validate is total with respect to exceptions: for every
attempt oracle it returns one of the two outcomes (it never propagates
an exception out of the loop), and an attempt that raises is caught by
the except clause and consumed as exactly one failed attempt of the
loop (the loop state advances from retry_count k to k + 1). -/
theorem copy_validate_total (att : Nat → AttemptResult) :
    ((copy_validate att).1 = .succeeded ∨
      (copy_validate att).1 = .failedAfterRetries) ∧
    (∀ fuel k, att k = .copyError →
      cvLoop att (fuel + 1) k = cvLoop att fuel (k + 1)) := by
  constructor
  · cases h : (copy_validate att).1 with
    | succeeded => exact Or.inl rfl
    | failedAfterRetries => exact Or.inr rfl
  · intro fuel k hk
    simp [cvLoop, hk]

/-- Witness for copy_validate_total: the exception attempt at
retry_count 0 is consumed as one failed attempt. -/
theorem copy_validate_total_witness :
    cvLoop (fun _ => AttemptResult.copyError) 4 0 =
      cvLoop (fun _ => AttemptResult.copyError) 3 1 :=
  (copy_validate_total (fun _ => AttemptResult.copyError)).2 3 0 rfl

/-
  run (file_sync_extended.py lines 387-419):

      if now == "1":
          synchronization(source, replica, log_file, multi, procnum, strict)
      if now == "2":
          synchronization(source, replica, log_file, multi, procnum, strict)
          sys.exit(0)
      procnum = min(procnum, multiprocessing.cpu_count())
      if sched:
          schedule_task(...); sys.exit(0)
      while True:
          synchronization(source, replica, log_file, multi, procnum, strict)
          time.sleep(...)

  Each synchronization pass with multi enabled creates a
  ProcessPoolExecutor with max_workers equal to the procnum value in
  scope at that call, so the number of concurrent workers of that pass
  is bounded by exactly that value.  runPasses returns the sequence of
  procnum values passed to the synchronization calls that run locally,
  with the unbounded while-True loop truncated to its first loopFuel
  iterations. -/
def runPasses (procnum cpu : Nat) (now : String) (sched : Bool)
    (loopFuel : Nat) : List Nat :=
  let first := if now = "1" then [procnum] else []
  if now = "2" then first ++ [procnum]
  else
    let clamped := min procnum cpu
    if sched then first
    else first ++ List.replicate loopFuel clamped

/-- C7 counterexample: with requested procnum 8, 4 available execution
units and now = "1", the first synchronization pass runs with worker
bound 8, which exceeds the number of execution units: the clamp
procnum = min(procnum, cpu_count()) is applied only after the
now-triggered passes have already executed. -/
theorem runPasses_clamp_cex :
    runPasses 8 4 "1" false 1 = [8, 4] ∧
    ¬ (∀ p ∈ runPasses 8 4 "1" false 1, p ≤ 4) := by
  constructor
  · rfl
  · intro h
    have := h 8 (by rw [(by rfl : runPasses 8 4 "1" false 1 = [8, 4])]; simp)
    omega

/-- C7 amended: every pass uses at most the requested parallelism; the
passes of the periodic loop (those after the at-most-one pass triggered
by the now flag) are additionally clamped to the number of available
execution units; and when no now-pass occurs every pass respects both
bounds.  The clamp happens after the now-triggered passes, so those
passes are bounded only by the requested parallelism. -/
theorem runPasses_clamped (procnum cpu : Nat) (now : String) (sched : Bool)
    (loopFuel : Nat) :
    (∀ p ∈ runPasses procnum cpu now sched loopFuel, p ≤ procnum) ∧
    (∀ p ∈ (runPasses procnum cpu now sched loopFuel).drop
        (if now = "1" ∨ now = "2" then 1 else 0), p ≤ cpu) ∧
    (now ≠ "1" → now ≠ "2" →
      ∀ p ∈ runPasses procnum cpu now sched loopFuel, p ≤ cpu) := by
  unfold runPasses
  by_cases h1 : now = "1"
  · have h2 : ¬ now = "2" := by rw [h1]; decide
    simp only [h1, ite_true, if_neg h2, eq_self_iff_true, true_or, ite_true]
    refine ⟨?_, ?_, ?_⟩
    · intro p hp
      revert hp
      cases sched <;> simp [List.mem_replicate] <;> omega
    · intro p hp
      revert hp
      cases sched <;> simp [List.mem_replicate] <;> omega
    · intro hc
      exact absurd rfl hc
  · by_cases h2 : now = "2"
    · simp only [if_neg h1, h2, ite_true, eq_self_iff_true, or_true]
      refine ⟨?_, ?_, ?_⟩
      · intro p hp
        revert hp
        simp <;> omega
      · intro p hp
        revert hp
        simp <;> omega
      · intro _ hc
        exact absurd rfl hc
    · have hor : ¬ (now = "1" ∨ now = "2") := by
        rintro (hc | hc)
        · exact h1 hc
        · exact h2 hc
      simp only [if_neg h1, if_neg h2, if_neg hor, List.drop_zero,
        List.nil_append]
      refine ⟨?_, ?_, ?_⟩
      · intro p hp
        revert hp
        cases sched <;> simp [List.mem_replicate] <;> omega
      · intro p hp
        revert hp
        cases sched <;> simp [List.mem_replicate] <;> omega
      · intro _ _ p hp
        revert hp
        cases sched <;> simp [List.mem_replicate] <;> omega

/-- Witness for runPasses_clamped: in a pure periodic run the loop
passes respect the execution-unit bound. -/
theorem runPasses_clamped_witness : (2 : Nat) ≤ 2 :=
  (runPasses_clamped 5 2 "0" false 1).2.2 (by decide) (by decide) 2
    (by decide)

/-- Replace the child with the given name in a children list (the
effect of overwriting an existing entry); appends when absent. -/
def childUpdate : List (String × FSTree) → String → FSTree →
    List (String × FSTree)
  | [], n, t => [(n, t)]
  | (m, u) :: rest, n, t =>
      if m = n then (n, t) :: rest else (m, u) :: childUpdate rest n t

/-- os.makedirs: create the directory at the given path together with
all missing intermediate directories.  Returns none when a component
of the path already exists as a file (NotADirectoryError /
FileExistsError).  A directory created by makedirs gets fresh stat
metadata, modelled as (0, 0). -/
def makedirs : FSTree → RPath → Option FSTree
  | t, [] => some t
  | .file _ _, _ :: _ => none
  | .dir s m cs, n :: p =>
      match childLookup cs n with
      | some t =>
          match makedirs t p with
          | none => none
          | some t' => some (.dir s m (childUpdate cs n t'))
      | none =>
          match makedirs (.dir 0 0 []) p with
          | none => none
          | some t' => some (.dir s m (cs ++ [(n, t')]))

/-- The filesystem effect of one successful shutil.copy2 call: write
the source file's content and modification timestamp at the
destination path, overwriting an existing file.  Returns none when the
copy raises: the destination is the replica root itself, a parent
component is missing or is a file, or the destination exists as a
directory. -/
def writeFile : FSTree → RPath → List Nat → Nat → Option FSTree
  | _, [], _, _ => none
  | .file _ _, _ :: _, _, _ => none
  | .dir s m cs, [n], c, mt =>
      match childLookup cs n with
      | some (.dir _ _ _) => none
      | some (.file _ _) => some (.dir s m (childUpdate cs n (.file c mt)))
      | none => some (.dir s m (cs ++ [(n, .file c mt)]))
  | .dir s m cs, n :: p :: ps, c, mt =>
      match childLookup cs n with
      | some t =>
          match writeFile t (p :: ps) c mt with
          | none => none
          | some t' => some (.dir s m (childUpdate cs n t'))
      | none => none

/-- Trace events of one synchronization pass, used to state phase
ordering: directory creation and per-file change checks are planning
events; a copy is an execution event; a removal is a reconciliation
event. -/
inductive Ev where
  | mkdirEv (p : RPath)
  | checkEv (p : RPath)
  | copyEv (p : RPath)
  | removeEv (p : RPath)
deriving Repr, DecidableEq

/-- A planning event: directory creation or a per-file change check. -/
def isPlanEv : Ev → Bool
  | .mkdirEv _ => true
  | .checkEv _ => true
  | _ => false

/-- A copy-execution event. -/
def isCopyEv : Ev → Bool
  | .copyEv _ => true
  | _ => false

/-- Planning fully precedes copying in a trace: after any copy event
no planning event occurs. -/
def planBeforeCopyB : List Ev → Bool
  | [] => true
  | e :: rest =>
      if isCopyEv e then rest.all (fun x => ! isPlanEv x)
      else planBeforeCopyB rest

/-- The directory-exists-or-create step of sync_directory for one
visited source directory (extended lines 156-158): if the mirrored
replica path does not exist, os.makedirs it. -/
def ensureDir (rep : FSTree) (p : RPath) : Option (FSTree × List Ev) :=
  if (FSTree.lookup rep p).isSome then some (rep, [])
  else
    match makedirs rep p with
    | none => none
    | some rep' => some (rep', [.mkdirEv p])

/-- The file loop of one visited source directory in the extended
sync_directory (lines 160-170): check every file among the children,
appending a task for each file that needs copying.  The replica tree
is only read here.  none models a raised exception (strict-mode
hashing of a replica entry that is a directory). -/
def planFiles (strict : Bool) (hash : List Nat → Nat) (path : RPath) :
    List (String × FSTree) → FSTree → Option (List RPath × List Ev)
  | [], _ => some ([], [])
  | (n, .file c m) :: rest, rep =>
      match fileNeedsCopy strict hash c m (rep.lookup (path ++ [n])) with
      | none => none
      | some (q, _) =>
          match planFiles strict hash path rest rep with
          | none => none
          | some (ts, evs) =>
              some ((if q then [path ++ [n]] else []) ++ ts,
                .checkEv (path ++ [n]) :: evs)
  | (_, .dir _ _ _) :: rest, rep => planFiles strict hash path rest rep

/-- The recursive part of the extended sync_directory walk: os.walk
visits the subdirectories of the current source directory in order;
each visit ensures the mirrored replica directory exists, runs the
file loop, then recursively visits its own subdirectories
(os.walk is top-down, so a directory is visited before its
children). -/
def planDirs (strict : Bool) (hash : List Nat → Nat) (path : RPath) :
    List (String × FSTree) → FSTree → Option (FSTree × List RPath × List Ev)
  | [], rep => some (rep, [], [])
  | (_, .file _ _) :: rest, rep => planDirs strict hash path rest rep
  | (n, .dir _ _ cs) :: rest, rep =>
      match ensureDir rep (path ++ [n]) with
      | none => none
      | some (rep1, evs0) =>
          match planFiles strict hash (path ++ [n]) cs rep1 with
          | none => none
          | some (ts1, evs1) =>
              match planDirs strict hash (path ++ [n]) cs rep1 with
              | none => none
              | some (rep2, ts2, evs2) =>
                  match planDirs strict hash path rest rep2 with
                  | none => none
                  | some (rep3, ts3, evs3) =>
                      some (rep3, ts1 ++ ts2 ++ ts3,
                        evs0 ++ evs1 ++ evs2 ++ evs3)

/-- sync_directory of file_sync_extended.py (lines 146-172): walk the
source tree top-down from its root, ensure mirrored directories exist,
and return the list of copy tasks (mirrored paths of files that need
copying).  The walk starts at the source root itself, whose mirrored
path is the replica root (always present).  Source and replica roots
are directories (paths are validated before the engine runs). -/
def sync_directory (strict : Bool) (hash : List Nat → Nat)
    (src rep : FSTree) : Option (FSTree × List RPath × List Ev) :=
  match src, rep with
  | .dir _ _ scs, .dir _ _ _ =>
      match planFiles strict hash [] scs rep with
      | none => none
      | some (ts0, evs0) =>
          match planDirs strict hash [] scs rep with
          | none => none
          | some (rep1, ts1, evs1) =>
              some (rep1, ts0 ++ ts1, evs0 ++ evs1)
  | _, _ => none

/-- Execution of one copy task by copy_validate under the
deterministic filesystem model: shutil.copy2 either raises on every
attempt (destination parent missing or a file, or destination is a
directory) — then all four attempts fail identically, the outcome is
FailedAfterRetries and the replica is unchanged — or it copies the
content and the modification timestamp, after which the two digests
are computed from identical content and match, so the first attempt
Succeeds.  The Bool is whether the outcome is Succeeded. -/
def execTask (src rep : FSTree) (p : RPath) : FSTree × Bool :=
  match src.lookup p with
  | some (.file c m) =>
      match writeFile rep p c m with
      | some rep' => (rep', true)
      | none => (rep, false)
  | _ => (rep, false)

/-- The sequential execution loop of the extended synchronization
(lines 246-249): run every task in planner order, collecting
outcomes. -/
def execAll (src : FSTree) : FSTree → List RPath → FSTree × List Bool
  | rep, [] => (rep, [])
  | rep, p :: ps =>
      match execTask src rep p with
      | (rep1, ok) =>
          match execAll src rep1 ps with
          | (rep2, os) => (rep2, ok :: os)

/-- A removal performed by cleanup_replica: a file deleted by
os.remove, or a directory deleted by shutil.rmtree; each is logged as
one removal event. -/
inductive RemovalEvent where
  | fileRemoved (p : RPath)
  | dirRemoved (p : RPath)
deriving Repr, DecidableEq

/-- The path of a removal event. -/
def RemovalEvent.path : RemovalEvent → RPath
  | .fileRemoved p => p
  | .dirRemoved p => p

/-- The file loop of one visited replica directory in cleanup_replica
(extended lines 215-220): remove every file among the children whose
mirrored source path does not exist. -/
def phaseFiles (src : FSTree) (path : RPath) :
    List (String × FSTree) → List (String × FSTree) × List RemovalEvent
  | [] => ([], [])
  | (n, .file c m) :: rest =>
      match phaseFiles src path rest with
      | (r, e) =>
          if (src.lookup (path ++ [n])).isSome then ((n, .file c m) :: r, e)
          else (r, .fileRemoved (path ++ [n]) :: e)
  | (n, .dir s m cs) :: rest =>
      match phaseFiles src path rest with
      | (r, e) => ((n, .dir s m cs) :: r, e)

/-- The directory loop of one visited replica directory in
cleanup_replica (extended lines 223-229): shutil.rmtree every
subdirectory whose mirrored source path does not exist, logging one
event for it (its stale contents were already removed, and logged,
while the walk visited it). -/
def phaseDirs (src : FSTree) (path : RPath) :
    List (String × FSTree) → List (String × FSTree) × List RemovalEvent
  | [] => ([], [])
  | (n, .file c m) :: rest =>
      match phaseDirs src path rest with
      | (r, e) => ((n, .file c m) :: r, e)
  | (n, .dir s m cs) :: rest =>
      match phaseDirs src path rest with
      | (r, e) =>
          if (src.lookup (path ++ [n])).isSome then ((n, .dir s m cs) :: r, e)
          else (r, .dirRemoved (path ++ [n]) :: e)

/-- The os.walk(topdown=False) recursion of cleanup_replica: for the
children of the replica directory at the given path, every
subdirectory subtree is fully processed — its own subdirectories
first, then its file loop and directory loop — before the caller's
own loops run, so the walk yields innermost directories first.  The
events are the removals in the order they are performed. -/
def cleanupKids (src : FSTree) (path : RPath) :
    List (String × FSTree) → List (String × FSTree) × List RemovalEvent
  | [] => ([], [])
  | (n, .file c m) :: rest =>
      match cleanupKids src path rest with
      | (r, e) => ((n, .file c m) :: r, e)
  | (n, .dir s m cs) :: rest =>
      match cleanupKids src (path ++ [n]) cs with
      | (cs1, e1) =>
          match phaseFiles src (path ++ [n]) cs1 with
          | (cs2, e2) =>
              match phaseDirs src (path ++ [n]) cs2 with
              | (cs3, e3) =>
                  match cleanupKids src path rest with
                  | (r, e4) =>
                      ((n, .dir s m cs3) :: r, (e1 ++ e2 ++ e3) ++ e4)

/-- cleanup_replica (extended lines 206-229, simple lines 200-223):
walk the replica bottom-up removing every file and directory whose
mirrored source path does not exist; the replica root itself is
processed last.  On a degenerate non-directory replica root the walk
yields nothing. -/
def cleanup_replica (src rep : FSTree) : FSTree × List RemovalEvent :=
  match rep with
  | .file c m => (.file c m, [])
  | .dir s m cs =>
      match cleanupKids src [] cs with
      | (cs1, e1) =>
          match phaseFiles src [] cs1 with
          | (cs2, e2) =>
              match phaseDirs src [] cs2 with
              | (cs3, e3) => (.dir s m cs3, e1 ++ e2 ++ e3)

/-- synchronization of file_sync_extended.py (lines 232-251): plan the
full task list with sync_directory, then execute every task with
copy_validate (the sequential branch; under multiprocessing the same
tasks are executed with the same per-task semantics), then run
cleanup_replica.  Returns the final replica tree, the task list, the
per-task outcomes, the removal events, and the full event trace of the
pass. -/
def synchronization (strict : Bool) (hash : List Nat → Nat)
    (src rep : FSTree) :
    Option (FSTree × List RPath × List Bool × List RemovalEvent × List Ev) :=
  match sync_directory strict hash src rep with
  | none => none
  | some (rep1, tasks, pevs) =>
      match execAll src rep1 tasks with
      | (rep2, outcomes) =>
          match cleanup_replica src rep2 with
          | (rep3, removals) =>
              some (rep3, tasks, outcomes, removals,
                pevs ++ tasks.map Ev.copyEv ++
                  removals.map (fun r => Ev.removeEv r.path))

/-- The file loop of one visited source directory in the simple
variant's sync_directory (simple lines 154-164): unlike the extended
variant, a file that needs copying is copied immediately by
copy_validate, inside the walk, so the replica tree is threaded
through the loop. -/
def syncFilesS (strict : Bool) (hash : List Nat → Nat) (srcRoot : FSTree)
    (path : RPath) :
    List (String × FSTree) → FSTree → Option (FSTree × List Ev)
  | [], rep => some (rep, [])
  | (n, .file c m) :: rest, rep =>
      match fileNeedsCopy strict hash c m (rep.lookup (path ++ [n])) with
      | none => none
      | some (q, _) =>
          match (if q then ((execTask srcRoot rep (path ++ [n])).1,
              [Ev.copyEv (path ++ [n])]) else (rep, [])) with
          | (rep1, cev) =>
              match syncFilesS strict hash srcRoot path rest rep1 with
              | none => none
              | some (rep2, evs) =>
                  some (rep2, Ev.checkEv (path ++ [n]) :: (cev ++ evs))
  | (_, .dir _ _ _) :: rest, rep => syncFilesS strict hash srcRoot path rest rep

/-- The recursive walk of the simple variant's sync_directory, with
copies interleaved into the walk. -/
def syncDirsS (strict : Bool) (hash : List Nat → Nat) (srcRoot : FSTree)
    (path : RPath) :
    List (String × FSTree) → FSTree → Option (FSTree × List Ev)
  | [], rep => some (rep, [])
  | (_, .file _ _) :: rest, rep => syncDirsS strict hash srcRoot path rest rep
  | (n, .dir _ _ cs) :: rest, rep =>
      match ensureDir rep (path ++ [n]) with
      | none => none
      | some (rep1, evs0) =>
          match syncFilesS strict hash srcRoot (path ++ [n]) cs rep1 with
          | none => none
          | some (rep2, evs1) =>
              match syncDirsS strict hash srcRoot (path ++ [n]) cs rep2 with
              | none => none
              | some (rep3, evs2) =>
                  match syncDirsS strict hash srcRoot path rest rep3 with
                  | none => none
                  | some (rep4, evs3) =>
                      some (rep4, evs0 ++ evs1 ++ evs2 ++ evs3)

/-- sync_directory of file_sync_simple.py (lines 137-164): the same
source walk as the extended variant, but each flagged file is copied
at once (copy_validate is called inside the walk) instead of being
appended to a task list. -/
def sync_directory_s (strict : Bool) (hash : List Nat → Nat)
    (src rep : FSTree) : Option (FSTree × List Ev) :=
  match src, rep with
  | .dir _ _ scs, .dir _ _ _ =>
      match syncFilesS strict hash src [] scs rep with
      | none => none
      | some (rep1, evs0) =>
          match syncDirsS strict hash src [] scs rep1 with
          | none => none
          | some (rep2, evs1) => some (rep2, evs0 ++ evs1)
  | _, _ => none

/-- synchronization of file_sync_simple.py (lines 226-231):
sync_directory (with interleaved copies) followed by
cleanup_replica. -/
def synchronization_s (strict : Bool) (hash : List Nat → Nat)
    (src rep : FSTree) : Option (FSTree × List Ev) :=
  match sync_directory_s strict hash src rep with
  | none => none
  | some (rep1, evs) =>
      match cleanup_replica src rep1 with
      | (rep2, removals) =>
          some (rep2, evs ++ removals.map (fun r => Ev.removeEv r.path))

/-- Nested induction principle for children lists of FSTree nodes:
the directory case gives induction hypotheses both for the child's own
children and for the remaining siblings. -/
theorem childrenRec (motive : List (String × FSTree) → Prop)
    (nil : motive [])
    (consFile : ∀ n c m rest, motive rest → motive ((n, .file c m) :: rest))
    (consDir : ∀ n s m cs rest, motive cs → motive rest →
      motive ((n, .dir s m cs) :: rest)) :
    ∀ l, motive l
  | [] => nil
  | (n, .file c m) :: rest =>
      consFile n c m rest (childrenRec motive nil consFile consDir rest)
  | (n, .dir s m cs) :: rest =>
      consDir n s m cs rest (childrenRec motive nil consFile consDir cs)
        (childrenRec motive nil consFile consDir rest)

theorem childLookup_update_self (cs : List (String × FSTree)) (n : String)
    (t : FSTree) : childLookup (childUpdate cs n t) n = some t := by
  induction cs with
  | nil => simp [childUpdate, childLookup]
  | cons hd rest ih =>
      obtain ⟨m, u⟩ := hd
      by_cases h : m = n
      · simp [childUpdate, h, childLookup]
      · simp [childUpdate, h, childLookup, ih]

theorem childLookup_update_other (cs : List (String × FSTree))
    (n n' : String) (t : FSTree) (h : n' ≠ n) :
    childLookup (childUpdate cs n t) n' = childLookup cs n' := by
  have hn : n ≠ n' := fun he => h he.symm
  induction cs with
  | nil => simp [childUpdate, childLookup, hn]
  | cons hd rest ih =>
      obtain ⟨m, u⟩ := hd
      by_cases hm : m = n
      · subst hm
        simp [childUpdate, childLookup, hn]
      · simp [childUpdate, hm, childLookup, ih]

theorem childLookup_append_one (cs : List (String × FSTree))
    (n n' : String) (u : FSTree) :
    childLookup (cs ++ [(n, u)]) n' =
      match childLookup cs n' with
      | some t => some t
      | none => if n = n' then some u else none := by
  induction cs with
  | nil => simp [childLookup]
  | cons hd rest ih =>
      obtain ⟨m, v⟩ := hd
      by_cases hm : m = n'
      · simp [childLookup, hm]
      · simp [childLookup, hm, ih]

/-- A tree containing no file entry at any path. -/
def NoFiles (t : FSTree) : Prop :=
  ∀ q c m, FSTree.lookup t q ≠ some (.file c m)

theorem makedirs_chain_noFiles : ∀ (p : RPath) (u : FSTree),
    makedirs (.dir 0 0 []) p = some u → NoFiles u := by
  intro p
  induction p with
  | nil =>
      intro u h
      simp [makedirs] at h
      subst h
      intro q c m hq
      cases q with
      | nil => simp [FSTree.lookup] at hq
      | cons a r => simp [FSTree.lookup, childLookup] at hq
  | cons n p' ih =>
      intro u h
      simp only [makedirs, childLookup] at h
      cases hw : makedirs (.dir 0 0 []) p' with
      | none => rw [hw] at h; simp at h
      | some w =>
          rw [hw] at h
          simp at h
          subst h
          intro q c m hq
          cases q with
          | nil => simp [FSTree.lookup] at hq
          | cons a r =>
              simp only [FSTree.lookup, childLookup] at hq
              by_cases ha : n = a
              · rw [if_pos ha] at hq
                exact ih w hw r c m hq
              · rw [if_neg ha] at hq
                simp at hq

/-- How the planner may change the replica tree: every existing entry
remains present, file entries are exactly preserved (none written,
none deleted, none modified), and directory entries keep their stat
metadata.  This is the directory-creation-only frame. -/
def DirGrowth (a b : FSTree) : Prop :=
  (∀ q, (FSTree.lookup a q).isSome → (FSTree.lookup b q).isSome) ∧
  (∀ q c m, FSTree.lookup a q = some (.file c m) ↔
    FSTree.lookup b q = some (.file c m)) ∧
  (∀ q s mt cs, FSTree.lookup a q = some (.dir s mt cs) →
    ∃ cs', FSTree.lookup b q = some (.dir s mt cs'))

theorem dirGrowth_refl (a : FSTree) : DirGrowth a a :=
  ⟨fun _ h => h, fun _ _ _ => Iff.rfl, fun _ _ _ cs h => ⟨cs, h⟩⟩

theorem dirGrowth_trans {a b c : FSTree} (h1 : DirGrowth a b)
    (h2 : DirGrowth b c) : DirGrowth a c := by
  obtain ⟨e1, f1, d1⟩ := h1
  obtain ⟨e2, f2, d2⟩ := h2
  refine ⟨fun q h => e2 q (e1 q h), fun q c' m => (f1 q c' m).trans (f2 q c' m),
    fun q s mt cs h => ?_⟩
  obtain ⟨cs', h'⟩ := d1 q s mt cs h
  exact d2 q s mt cs' h'

theorem dirGrowth_update (s m : Nat) (cs : List (String × FSTree))
    (n : String) (u u' : FSTree) (hcl : childLookup cs n = some u)
    (hg : DirGrowth u u') :
    DirGrowth (.dir s m cs) (.dir s m (childUpdate cs n u')) := by
  obtain ⟨e1, f1, d1⟩ := hg
  refine ⟨?_, ?_, ?_⟩
  · intro q hq
    cases q with
    | nil => simp [FSTree.lookup]
    | cons n' r =>
        by_cases hn : n' = n
        · subst hn
          simp only [FSTree.lookup, hcl] at hq
          simp only [FSTree.lookup, childLookup_update_self]
          exact e1 r hq
        · simp only [FSTree.lookup,
            childLookup_update_other cs n n' u' hn] at hq ⊢
          exact hq
  · intro q c' m'
    cases q with
    | nil => simp [FSTree.lookup]
    | cons n' r =>
        by_cases hn : n' = n
        · subst hn
          simp only [FSTree.lookup, hcl, childLookup_update_self]
          exact f1 r c' m'
        · simp only [FSTree.lookup,
            childLookup_update_other cs n n' u' hn]
  · intro q s' mt' cs' hq
    cases q with
    | nil =>
        simp only [FSTree.lookup, Option.some_inj] at hq
        injection hq with h1 h2 h3
        subst h1
        subst h2
        exact ⟨childUpdate cs n u', rfl⟩
    | cons n' r =>
        by_cases hn : n' = n
        · subst hn
          simp only [FSTree.lookup, hcl] at hq
          simp only [FSTree.lookup, childLookup_update_self]
          exact d1 r s' mt' cs' hq
        · simp only [FSTree.lookup,
            childLookup_update_other cs n n' u' hn] at hq ⊢
          exact ⟨cs', hq⟩

theorem dirGrowth_append (s m : Nat) (cs : List (String × FSTree))
    (n : String) (u' : FSTree) (hcl : childLookup cs n = none)
    (hnf : NoFiles u') :
    DirGrowth (.dir s m cs) (.dir s m (cs ++ [(n, u')])) := by
  refine ⟨?_, ?_, ?_⟩
  · intro q hq
    cases q with
    | nil => simp [FSTree.lookup]
    | cons n' r =>
        simp only [FSTree.lookup] at hq ⊢
        rw [childLookup_append_one]
        cases hcl' : childLookup cs n' with
        | none => simp [hcl'] at hq
        | some t =>
            simp only [hcl'] at hq ⊢
            exact hq
  · intro q c' m'
    cases q with
    | nil => simp [FSTree.lookup]
    | cons n' r =>
        simp only [FSTree.lookup]
        rw [childLookup_append_one]
        cases hcl' : childLookup cs n' with
        | none =>
            simp only
            by_cases hn : n = n'
            · rw [if_pos hn]
              constructor
              · intro h; simp at h
              · intro h; exact absurd h (hnf r c' m')
            · rw [if_neg hn]
        | some t => simp only
  · intro q s' mt' cs' hq
    cases q with
    | nil =>
        simp only [FSTree.lookup, Option.some_inj] at hq
        injection hq with h1 h2 h3
        subst h1
        subst h2
        exact ⟨cs ++ [(n, u')], rfl⟩
    | cons n' r =>
        simp only [FSTree.lookup] at hq ⊢
        rw [childLookup_append_one]
        cases hcl' : childLookup cs n' with
        | none => simp [hcl'] at hq
        | some t =>
            simp only [hcl'] at hq ⊢
            exact ⟨cs', hq⟩

theorem makedirs_growth : ∀ (p : RPath) (a a' : FSTree),
    makedirs a p = some a' → DirGrowth a a' := by
  intro p
  induction p with
  | nil =>
      intro a a' h
      simp [makedirs] at h
      subst h
      exact dirGrowth_refl a
  | cons n p' ih =>
      intro a a' h
      cases a with
      | file c m => simp [makedirs] at h
      | dir s m cs =>
          simp only [makedirs] at h
          cases hcl : childLookup cs n with
          | some u =>
              simp only [hcl] at h
              cases hm : makedirs u p' with
              | none => simp [hm] at h
              | some u' =>
                  simp only [hm, Option.some_inj] at h
                  subst h
                  exact dirGrowth_update s m cs n u u' hcl (ih u u' hm)
          | none =>
              simp only [hcl] at h
              cases hm : makedirs (.dir 0 0 []) p' with
              | none => simp [hm] at h
              | some u' =>
                  simp only [hm, Option.some_inj] at h
                  subst h
                  exact dirGrowth_append s m cs n u' hcl
                    (makedirs_chain_noFiles p' u' hm)

theorem ensureDir_growth (rep : FSTree) (p : RPath) (rep' : FSTree)
    (evs : List Ev) (h : ensureDir rep p = some (rep', evs)) :
    DirGrowth rep rep' := by
  unfold ensureDir at h
  by_cases he : (FSTree.lookup rep p).isSome
  · rw [if_pos he] at h
    simp only [Option.some_inj, Prod.mk.injEq] at h
    rw [← h.1]
    exact dirGrowth_refl rep
  · rw [if_neg he] at h
    cases hm : makedirs rep p with
    | none => rw [hm] at h; simp at h
    | some r' =>
        rw [hm] at h
        simp only [Option.some_inj, Prod.mk.injEq] at h
        rw [← h.1]
        exact makedirs_growth p rep r' hm

theorem planDirs_growth (strict : Bool) (hash : List Nat → Nat) :
    ∀ cs : List (String × FSTree), ∀ (path : RPath) (rep rep1 : FSTree)
      (ts : List RPath) (evs : List Ev),
      planDirs strict hash path cs rep = some (rep1, ts, evs) →
      DirGrowth rep rep1 := by
  intro cs
  induction cs using childrenRec with
  | nil =>
      intro path rep rep1 ts evs h
      simp only [planDirs, Option.some_inj, Prod.mk.injEq] at h
      rw [← h.1]
      exact dirGrowth_refl rep
  | consFile n c m rest ih =>
      intro path rep rep1 ts evs h
      simp only [planDirs] at h
      exact ih path rep rep1 ts evs h
  | consDir n s m cs rest ih1 ih2 =>
      intro path rep rep1 ts evs h
      simp only [planDirs] at h
      cases he : ensureDir rep (path ++ [n]) with
      | none => simp [he] at h
      | some pr =>
          obtain ⟨repA, evs0⟩ := pr
          simp only [he] at h
          cases hf : planFiles strict hash (path ++ [n]) cs repA with
          | none => simp [hf] at h
          | some pf =>
              obtain ⟨ts1, evs1⟩ := pf
              simp only [hf] at h
              cases hd : planDirs strict hash (path ++ [n]) cs repA with
              | none => simp [hd] at h
              | some pd =>
                  obtain ⟨repB, ts2, evs2⟩ := pd
                  simp only [hd] at h
                  cases hr : planDirs strict hash path rest repB with
                  | none => simp [hr] at h
                  | some prr =>
                      obtain ⟨repC, ts3, evs3⟩ := prr
                      simp only [hr, Option.some_inj, Prod.mk.injEq] at h
                      obtain ⟨h1, -⟩ := h
                      subst h1
                      exact dirGrowth_trans
                        (dirGrowth_trans
                          (ensureDir_growth rep _ repA evs0 he)
                          (ih1 _ repA repB ts2 evs2 hd))
                        (ih2 path repB repC ts3 evs3 hr)

theorem planFiles_evs (strict : Bool) (hash : List Nat → Nat) :
    ∀ (cs : List (String × FSTree)) (path : RPath) (rep : FSTree)
      (ts : List RPath) (evs : List Ev),
      planFiles strict hash path cs rep = some (ts, evs) →
      ∀ e ∈ evs, isPlanEv e = true := by
  intro cs
  induction cs with
  | nil =>
      intro path rep ts evs h
      simp only [planFiles, Option.some_inj, Prod.mk.injEq] at h
      rw [← h.2]
      intro e he
      simp at he
  | cons hd rest ih =>
      intro path rep ts evs h
      obtain ⟨n, t⟩ := hd
      cases t with
      | dir s m cs' =>
          simp only [planFiles] at h
          exact ih path rep ts evs h
      | file c m =>
          simp only [planFiles] at h
          cases hc : fileNeedsCopy strict hash c m
              (rep.lookup (path ++ [n])) with
          | none => simp [hc] at h
          | some qd =>
              obtain ⟨q, d⟩ := qd
              simp only [hc] at h
              cases hrest : planFiles strict hash path rest rep with
              | none => simp [hrest] at h
              | some pr =>
                  obtain ⟨ts', evs'⟩ := pr
                  simp only [hrest, Option.some_inj, Prod.mk.injEq] at h
                  obtain ⟨-, h2⟩ := h
                  rw [← h2]
                  intro e he
                  simp only [List.mem_cons] at he
                  rcases he with rfl | he
                  · rfl
                  · exact ih path rep ts' evs' hrest e he

theorem ensureDir_evs (rep : FSTree) (p : RPath) (rep' : FSTree)
    (evs : List Ev) (h : ensureDir rep p = some (rep', evs)) :
    ∀ e ∈ evs, isPlanEv e = true := by
  unfold ensureDir at h
  by_cases he : (FSTree.lookup rep p).isSome
  · rw [if_pos he] at h
    simp only [Option.some_inj, Prod.mk.injEq] at h
    rw [← h.2]
    intro e hee
    simp at hee
  · rw [if_neg he] at h
    cases hm : makedirs rep p with
    | none => rw [hm] at h; simp at h
    | some r' =>
        rw [hm] at h
        simp only [Option.some_inj, Prod.mk.injEq] at h
        rw [← h.2]
        intro e hee
        simp only [List.mem_singleton] at hee
        subst hee
        rfl

theorem planDirs_evs (strict : Bool) (hash : List Nat → Nat) :
    ∀ cs : List (String × FSTree), ∀ (path : RPath) (rep rep1 : FSTree)
      (ts : List RPath) (evs : List Ev),
      planDirs strict hash path cs rep = some (rep1, ts, evs) →
      ∀ e ∈ evs, isPlanEv e = true := by
  intro cs
  induction cs using childrenRec with
  | nil =>
      intro path rep rep1 ts evs h
      simp only [planDirs, Option.some_inj, Prod.mk.injEq] at h
      rw [← h.2.2]
      intro e he
      simp at he
  | consFile n c m rest ih =>
      intro path rep rep1 ts evs h
      simp only [planDirs] at h
      exact ih path rep rep1 ts evs h
  | consDir n s m cs rest ih1 ih2 =>
      intro path rep rep1 ts evs h
      simp only [planDirs] at h
      cases he : ensureDir rep (path ++ [n]) with
      | none => simp [he] at h
      | some pr =>
          obtain ⟨repA, evs0⟩ := pr
          simp only [he] at h
          cases hf : planFiles strict hash (path ++ [n]) cs repA with
          | none => simp [hf] at h
          | some pf =>
              obtain ⟨ts1, evs1⟩ := pf
              simp only [hf] at h
              cases hd : planDirs strict hash (path ++ [n]) cs repA with
              | none => simp [hd] at h
              | some pd =>
                  obtain ⟨repB, ts2, evs2⟩ := pd
                  simp only [hd] at h
                  cases hr : planDirs strict hash path rest repB with
                  | none => simp [hr] at h
                  | some prr =>
                      obtain ⟨repC, ts3, evs3⟩ := prr
                      simp only [hr, Option.some_inj, Prod.mk.injEq] at h
                      obtain ⟨-, -, h3⟩ := h
                      rw [← h3]
                      intro e hee
                      simp only [List.mem_append] at hee
                      rcases hee with ((hee | hee) | hee) | hee
                      · exact ensureDir_evs rep _ repA evs0 he e hee
                      · exact planFiles_evs strict hash cs _ repA ts1 evs1 hf
                          e hee
                      · exact ih1 _ repA repB ts2 evs2 hd e hee
                      · exact ih2 path repB repC ts3 evs3 hr e hee

theorem planBeforeCopyB_noPlan : ∀ B : List Ev,
    (∀ e ∈ B, isPlanEv e = false) → planBeforeCopyB B = true := by
  intro B
  induction B with
  | nil => intro _; rfl
  | cons e rest ih =>
      intro h
      simp only [planBeforeCopyB]
      by_cases hc : isCopyEv e = true
      · rw [if_pos hc]
        rw [List.all_eq_true]
        intro x hx
        simp [h x (List.mem_cons_of_mem e hx)]
      · rw [if_neg hc]
        exact ih (fun x hx => h x (List.mem_cons_of_mem e hx))

theorem planBeforeCopyB_append : ∀ A : List Ev,
    (∀ e ∈ A, isPlanEv e = true) → ∀ B : List Ev,
    (∀ e ∈ B, isPlanEv e = false) → planBeforeCopyB (A ++ B) = true := by
  intro A
  induction A with
  | nil =>
      intro _ B hB
      simpa using planBeforeCopyB_noPlan B hB
  | cons e rest ih =>
      intro hA B hB
      have hplan : isPlanEv e = true := hA e (List.mem_cons_self e rest)
      have hnc : isCopyEv e = false := by
        cases e <;> simp_all [isPlanEv, isCopyEv]
      simp only [List.cons_append, planBeforeCopyB, hnc, Bool.false_eq_true,
        if_false]
      exact ih (fun x hx => hA x (List.mem_cons_of_mem e hx)) B hB

/-- C1 amended (extended variant): in file_sync_extended.py the
planning phase fully completes before any copy executes — every
planning event (directory creation, change check) precedes every copy
event in the trace of a pass — and the planner's only side effects on
the replica tree are directory creations: every existing entry
survives planning, and the file entries after planning are exactly the
file entries before it (no file written, nothing deleted).  The
planner takes the source tree as read-only input and returns only a
new replica, so it has no side effects on the source.  In
file_sync_simple.py this phase separation does not hold: see the
counterexample, where a copy executes during the walk, before the
walk's next change check. -/
theorem extended_plan_phase :
    (∀ (strict : Bool) (hash : List Nat → Nat) (src rep : FSTree) out,
      synchronization strict hash src rep = some out →
      planBeforeCopyB out.2.2.2.2 = true) ∧
    (∀ (strict : Bool) (hash : List Nat → Nat) (src rep rep1 : FSTree)
      (ts : List RPath) (evs : List Ev),
      sync_directory strict hash src rep = some (rep1, ts, evs) →
      (∀ q, (FSTree.lookup rep q).isSome → (FSTree.lookup rep1 q).isSome) ∧
      (∀ q c m, FSTree.lookup rep q = some (.file c m) ↔
        FSTree.lookup rep1 q = some (.file c m))) := by
  have hsd : ∀ (strict : Bool) (hash : List Nat → Nat)
      (src rep rep1 : FSTree) (ts : List RPath) (evs : List Ev),
      sync_directory strict hash src rep = some (rep1, ts, evs) →
      DirGrowth rep rep1 ∧ ∀ e ∈ evs, isPlanEv e = true := by
    intro strict hash src rep rep1 ts evs h
    unfold sync_directory at h
    cases src with
    | file c m => simp at h
    | dir ss sm scs =>
        cases rep with
        | file c m => simp at h
        | dir rs rm rcs =>
            simp only at h
            cases hf : planFiles strict hash [] scs (.dir rs rm rcs) with
            | none => simp [hf] at h
            | some pf =>
                obtain ⟨ts0, evs0⟩ := pf
                simp only [hf] at h
                cases hd : planDirs strict hash [] scs (.dir rs rm rcs) with
                | none => simp [hd] at h
                | some pd =>
                    obtain ⟨repA, ts1, evs1⟩ := pd
                    simp only [hd, Option.some_inj, Prod.mk.injEq] at h
                    obtain ⟨h1, -, h3⟩ := h
                    subst h1
                    constructor
                    · exact planDirs_growth strict hash scs [] _ _ ts1 evs1 hd
                    · rw [← h3]
                      intro e he
                      simp only [List.mem_append] at he
                      rcases he with he | he
                      · exact planFiles_evs strict hash scs [] _ ts0 evs0 hf
                          e he
                      · exact planDirs_evs strict hash scs [] _ _ ts1 evs1 hd
                          e he
  constructor
  · intro strict hash src rep out h
    unfold synchronization at h
    cases hs : sync_directory strict hash src rep with
    | none => rw [hs] at h; simp at h
    | some sd =>
        obtain ⟨rep1, tasks, pevs⟩ := sd
        rw [hs] at h
        simp only at h
        cases hex : execAll src rep1 tasks with
        | mk rep2 outcomes =>
            rw [hex] at h
            simp only at h
            cases hcl : cleanup_replica src rep2 with
            | mk rep3 removals =>
                rw [hcl] at h
                simp only [Option.some_inj] at h
                rw [← h]
                simp only
                rw [List.append_assoc]
                apply planBeforeCopyB_append
                · intro e he
                  exact (hsd strict hash src rep rep1 tasks pevs hs).2 e he
                · intro e he
                  simp only [List.mem_append, List.mem_map] at he
                  rcases he with ⟨p, -, rfl⟩ | ⟨r, -, rfl⟩ <;> rfl
  · intro strict hash src rep rep1 ts evs h
    obtain ⟨⟨g1, g2, -⟩, -⟩ := hsd strict hash src rep rep1 ts evs h
    exact ⟨g1, g2⟩

/-- Concrete trees for the C1 counterexample: a source with two fresh
files and an empty replica. -/
def c1Src : FSTree := .dir 0 0 [("a", .file [1] 0), ("b", .file [2] 0)]

/-- Empty replica root for the C1 counterexample. -/
def c1Rep : FSTree := .dir 5 5 []

/-- C1 counterexample: in file_sync_simple.py the planning phase does
not complete before the first copy.  On a source with files a and b
that both need copying, the pass trace is check a, copy a, check b,
copy b: the copy of a executes before the walk checks b, and the
walk's copy writes a file to the replica during what the claim calls
planning.  So the claim, which requires phase separation in both
implementations, fails on the simple variant. -/
theorem simple_phase_order_cex :
    (synchronization_s false (fun l => l.length) c1Src c1Rep).map
        (fun r => r.2) =
      some [Ev.checkEv ["a"], Ev.copyEv ["a"], Ev.checkEv ["b"],
        Ev.copyEv ["b"]] ∧
    planBeforeCopyB [Ev.checkEv ["a"], Ev.copyEv ["a"], Ev.checkEv ["b"],
      Ev.copyEv ["b"]] = false := by
  constructor
  · simp [c1Src, c1Rep, synchronization_s, sync_directory_s, syncFilesS,
      syncDirsS, fileNeedsCopy, modified_check, FSTree.lookup, childLookup,
      execTask, writeFile, cleanup_replica, cleanupKids, phaseFiles,
      phaseDirs, childUpdate, ensureDir, statPair]
  · simp [planBeforeCopyB, isCopyEv, isPlanEv, List.all]

/-- Witness for extended_plan_phase: on the same input the extended
variant's trace puts both checks before both copies. -/
theorem extended_plan_phase_witness :
    planBeforeCopyB [Ev.checkEv ["a"], Ev.checkEv ["b"], Ev.copyEv ["a"],
      Ev.copyEv ["b"]] = true := by
  have hsync : synchronization false (fun l => l.length) c1Src c1Rep =
      some (.dir 5 5 [("a", .file [1] 0), ("b", .file [2] 0)], [["a"], ["b"]],
        [true, true], [],
        [Ev.checkEv ["a"], Ev.checkEv ["b"], Ev.copyEv ["a"],
          Ev.copyEv ["b"]]) := by
    simp [c1Src, c1Rep, synchronization, sync_directory, planFiles, planDirs,
      fileNeedsCopy, modified_check, FSTree.lookup, childLookup, execAll,
      execTask, writeFile, cleanup_replica, cleanupKids, phaseFiles,
      phaseDirs, childUpdate, ensureDir, statPair]
  exact extended_plan_phase.1 false (fun l => l.length) c1Src c1Rep _ hsync

theorem lookup_head_none (src : FSTree) (a : String) (r : RPath)
    (h : FSTree.lookup src [a] = none) :
    FSTree.lookup src (a :: r) = none := by
  cases src with
  | file c m => simp [FSTree.lookup]
  | dir s m cs =>
      simp only [FSTree.lookup] at h ⊢
      cases hcl : childLookup cs a with
      | none => simp
      | some t =>
          rw [hcl] at h
          simp [FSTree.lookup] at h

/-- C6: reconciliation is bottom-up.  For a replica subtree A/B/c with
no corresponding source entry at any level (the source has no entry at
A, hence none deeper), cleanup_replica deletes the file c and emits
its removal event first, then removes directory A/B, then directory A;
each of the three stale entries produces exactly one removal event,
and each directory is removed only after its descendants have been
processed (each directory is in fact already empty when rmtree removes
it). -/
theorem cleanup_bottom_up (src : FSTree) (a b c : String) (d : List Nat)
    (mf s1 m1 s2 m2 sr mr : Nat)
    (h : FSTree.lookup src [a] = none) :
    cleanup_replica src
      (.dir sr mr [(a, .dir s1 m1 [(b, .dir s2 m2 [(c, .file d mf)])])]) =
    (.dir sr mr [],
      [.fileRemoved [a, b, c], .dirRemoved [a, b], .dirRemoved [a]]) := by
  have h2 : FSTree.lookup src [a, b] = none := lookup_head_none src a [b] h
  have h3 : FSTree.lookup src [a, b, c] = none :=
    lookup_head_none src a [b, c] h
  simp [cleanup_replica, cleanupKids, phaseFiles, phaseDirs, h, h2, h3]

/-- Witness for cleanup_bottom_up at concrete names and an empty
source. -/
theorem cleanup_bottom_up_witness :
    cleanup_replica (.dir 0 0 [])
      (.dir 9 9 [("A", .dir 1 1 [("B", .dir 2 2
        [("c.txt", .file [7] 3)])])]) =
    (.dir 9 9 [],
      [.fileRemoved ["A", "B", "c.txt"], .dirRemoved ["A", "B"],
        .dirRemoved ["A"]]) :=
  cleanup_bottom_up (.dir 0 0 []) "A" "B" "c.txt" [7] 3 1 1 2 2 9 9
    (by simp [FSTree.lookup, childLookup])

/-- Resolve a path against a children list (the children of a
directory). -/
def lookupKids (cs : List (String × FSTree)) : RPath → Option FSTree
  | [] => none
  | n :: r =>
      match childLookup cs n with
      | none => none
      | some t => t.lookup r

theorem lookup_dir_eq_kids (s m : Nat) (cs : List (String × FSTree))
    (n : String) (r : RPath) :
    FSTree.lookup (.dir s m cs) (n :: r) = lookupKids cs (n :: r) := by
  simp [FSTree.lookup, lookupKids]

theorem lookup_append_isSome : ∀ (p : RPath) (t : FSTree) (q : RPath),
    (FSTree.lookup t (p ++ q)).isSome → (FSTree.lookup t p).isSome := by
  intro p
  induction p with
  | nil =>
      intro t q _
      simp [FSTree.lookup]
  | cons n p' ih =>
      intro t q h
      cases t with
      | file c m => simp [FSTree.lookup] at h
      | dir s m cs =>
          simp only [List.cons_append, FSTree.lookup] at h ⊢
          cases hcl : childLookup cs n with
          | none => rw [hcl] at h; simp at h
          | some u =>
              rw [hcl] at h
              exact ih u q h

/-- The full processing of one visited replica directory during the
bottom-up walk of cleanup_replica: recursive processing of its
subdirectory subtrees, then its file-removal loop, then its
directory-removal loop. -/
def cleanVisit (src : FSTree) (path : RPath)
    (cs : List (String × FSTree)) :
    List (String × FSTree) × List RemovalEvent :=
  match cleanupKids src path cs with
  | (c1, e1) =>
      match phaseFiles src path c1 with
      | (c2, e2) =>
          match phaseDirs src path c2 with
          | (c3, e3) => (c3, e1 ++ e2 ++ e3)

theorem cleanup_replica_dir (src : FSTree) (s m : Nat)
    (cs : List (String × FSTree)) :
    cleanup_replica src (.dir s m cs) =
      (.dir s m (cleanVisit src [] cs).1, (cleanVisit src [] cs).2) := by
  cases h1 : cleanupKids src [] cs with
  | mk c1 e1 =>
      cases h2 : phaseFiles src [] c1 with
      | mk c2 e2 =>
          cases h3 : phaseDirs src [] c2 with
          | mk c3 e3 => simp [cleanup_replica, cleanVisit, h1, h2, h3]

theorem cleanupKids_consFile (src : FSTree) (path : RPath) (n : String)
    (c : List Nat) (m : Nat) (rest : List (String × FSTree)) :
    cleanupKids src path ((n, .file c m) :: rest) =
      ((n, .file c m) :: (cleanupKids src path rest).1,
        (cleanupKids src path rest).2) := by
  cases h : cleanupKids src path rest with
  | mk r e => simp [cleanupKids, h]

theorem cleanupKids_consDir (src : FSTree) (path : RPath) (n : String)
    (s m : Nat) (ds rest : List (String × FSTree)) :
    cleanupKids src path ((n, .dir s m ds) :: rest) =
      ((n, .dir s m (cleanVisit src (path ++ [n]) ds).1) ::
          (cleanupKids src path rest).1,
        (cleanVisit src (path ++ [n]) ds).2 ++
          (cleanupKids src path rest).2) := by
  cases h1 : cleanupKids src (path ++ [n]) ds with
  | mk c1 e1 =>
      cases h2 : phaseFiles src (path ++ [n]) c1 with
      | mk c2 e2 =>
          cases h3 : phaseDirs src (path ++ [n]) c2 with
          | mk c3 e3 =>
              cases h4 : cleanupKids src path rest with
              | mk r e4 =>
                  conv_lhs => rw [cleanupKids]
                  simp [cleanVisit, h1, h2, h3, h4]

theorem phaseFiles_consFile_keep (src : FSTree) (path : RPath) (n : String)
    (c : List Nat) (m : Nat) (l : List (String × FSTree))
    (h : (FSTree.lookup src (path ++ [n])).isSome = true) :
    phaseFiles src path ((n, .file c m) :: l) =
      ((n, .file c m) :: (phaseFiles src path l).1,
        (phaseFiles src path l).2) := by
  cases hr : phaseFiles src path l with
  | mk r e => simp [phaseFiles, hr, h]

theorem phaseFiles_consFile_drop (src : FSTree) (path : RPath) (n : String)
    (c : List Nat) (m : Nat) (l : List (String × FSTree))
    (h : (FSTree.lookup src (path ++ [n])).isSome = false) :
    phaseFiles src path ((n, .file c m) :: l) =
      ((phaseFiles src path l).1,
        .fileRemoved (path ++ [n]) :: (phaseFiles src path l).2) := by
  cases hr : phaseFiles src path l with
  | mk r e => simp [phaseFiles, hr, h]

theorem phaseFiles_consDir (src : FSTree) (path : RPath) (n : String)
    (s m : Nat) (ds : List (String × FSTree)) (l : List (String × FSTree)) :
    phaseFiles src path ((n, .dir s m ds) :: l) =
      ((n, .dir s m ds) :: (phaseFiles src path l).1,
        (phaseFiles src path l).2) := by
  cases hr : phaseFiles src path l with
  | mk r e => simp [phaseFiles, hr]

theorem phaseDirs_consFile (src : FSTree) (path : RPath) (n : String)
    (c : List Nat) (m : Nat) (l : List (String × FSTree)) :
    phaseDirs src path ((n, .file c m) :: l) =
      ((n, .file c m) :: (phaseDirs src path l).1,
        (phaseDirs src path l).2) := by
  cases hr : phaseDirs src path l with
  | mk r e => simp [phaseDirs, hr]

theorem phaseDirs_consDir_keep (src : FSTree) (path : RPath) (n : String)
    (s m : Nat) (ds : List (String × FSTree)) (l : List (String × FSTree))
    (h : (FSTree.lookup src (path ++ [n])).isSome = true) :
    phaseDirs src path ((n, .dir s m ds) :: l) =
      ((n, .dir s m ds) :: (phaseDirs src path l).1,
        (phaseDirs src path l).2) := by
  cases hr : phaseDirs src path l with
  | mk r e => simp [phaseDirs, hr, h]

theorem phaseDirs_consDir_drop (src : FSTree) (path : RPath) (n : String)
    (s m : Nat) (ds : List (String × FSTree)) (l : List (String × FSTree))
    (h : (FSTree.lookup src (path ++ [n])).isSome = false) :
    phaseDirs src path ((n, .dir s m ds) :: l) =
      ((phaseDirs src path l).1,
        .dirRemoved (path ++ [n]) :: (phaseDirs src path l).2) := by
  cases hr : phaseDirs src path l with
  | mk r e => simp [phaseDirs, hr, h]

theorem cleanVisit_eq (src : FSTree) (path : RPath)
    (cs : List (String × FSTree)) :
    cleanVisit src path cs =
      ((phaseDirs src path (phaseFiles src path
          (cleanupKids src path cs).1).1).1,
        (cleanupKids src path cs).2 ++
          (phaseFiles src path (cleanupKids src path cs).1).2 ++
          (phaseDirs src path (phaseFiles src path
            (cleanupKids src path cs).1).1).2) := by
  cases h1 : cleanupKids src path cs with
  | mk c1 e1 =>
      cases h2 : phaseFiles src path c1 with
      | mk c2 e2 =>
          cases h3 : phaseDirs src path c2 with
          | mk c3 e3 => simp [cleanVisit, h1, h2, h3]

theorem cleanVisit_consFile_keep (src : FSTree) (path : RPath) (n : String)
    (c : List Nat) (m : Nat) (l : List (String × FSTree))
    (h : (FSTree.lookup src (path ++ [n])).isSome = true) :
    cleanVisit src path ((n, .file c m) :: l) =
      ((n, .file c m) :: (cleanVisit src path l).1,
        (cleanVisit src path l).2) := by
  simp [cleanVisit_eq, cleanupKids_consFile, phaseFiles_consFile_keep,
    phaseDirs_consFile, h]

theorem cleanVisit_consDir_keep (src : FSTree) (path : RPath) (n : String)
    (s m : Nat) (ds l : List (String × FSTree))
    (h : (FSTree.lookup src (path ++ [n])).isSome = true) :
    cleanVisit src path ((n, .dir s m ds) :: l) =
      ((n, .dir s m (cleanVisit src (path ++ [n]) ds).1) ::
          (cleanVisit src path l).1,
        (cleanVisit src (path ++ [n]) ds).2 ++ (cleanVisit src path l).2) := by
  simp [cleanVisit_eq, cleanupKids_consDir, phaseFiles_consDir,
    phaseDirs_consDir_keep, h]

theorem cleanVisit_fst_consFile_drop (src : FSTree) (path : RPath)
    (n : String) (c : List Nat) (m : Nat) (l : List (String × FSTree))
    (h : (FSTree.lookup src (path ++ [n])).isSome = false) :
    (cleanVisit src path ((n, .file c m) :: l)).1 =
      (cleanVisit src path l).1 := by
  simp [cleanVisit_eq, cleanupKids_consFile, phaseFiles_consFile_drop,
    phaseDirs_consFile, h]

theorem cleanVisit_fst_consDir_drop (src : FSTree) (path : RPath)
    (n : String) (s m : Nat) (ds l : List (String × FSTree))
    (h : (FSTree.lookup src (path ++ [n])).isSome = false) :
    (cleanVisit src path ((n, .dir s m ds) :: l)).1 =
      (cleanVisit src path l).1 := by
  simp [cleanVisit_eq, cleanupKids_consDir, phaseFiles_consDir,
    phaseDirs_consDir_drop, h]

theorem lookupKids_cons_self (n : String) (t : FSTree)
    (l : List (String × FSTree)) (r : RPath) :
    lookupKids ((n, t) :: l) (n :: r) = t.lookup r := by
  simp [lookupKids, childLookup]

theorem lookupKids_cons_other (n n' : String) (t : FSTree)
    (l : List (String × FSTree)) (r : RPath) (h : n' ≠ n) :
    lookupKids ((n, t) :: l) (n' :: r) = lookupKids l (n' :: r) := by
  have hn : ¬ n = n' := fun he => h he.symm
  simp [lookupKids, childLookup, hn]

theorem append_cons_eq (path : RPath) (n : String) (r : RPath) :
    path ++ n :: r = (path ++ [n]) ++ r := by
  simp

theorem cleanVisit_preserve (src : FSTree) :
    ∀ (l : List (String × FSTree)) (path q : RPath),
      (FSTree.lookup src (path ++ q)).isSome = true →
      (∀ c m, lookupKids l q = some (.file c m) →
        lookupKids (cleanVisit src path l).1 q = some (.file c m)) ∧
      (∀ s m ds, lookupKids l q = some (.dir s m ds) →
        ∃ ds', lookupKids (cleanVisit src path l).1 q =
          some (.dir s m ds')) := by
  intro l
  induction l using childrenRec with
  | nil =>
      intro path q hsrc
      constructor
      · intro c m h
        cases q <;> simp [lookupKids, childLookup] at h
      · intro s m ds h
        cases q <;> simp [lookupKids, childLookup] at h
  | consFile n c m rest ih =>
      intro path q hsrc
      cases q with
      | nil =>
          constructor
          · intro c' m' h
            simp [lookupKids] at h
          · intro s' m' ds h
            simp [lookupKids] at h
      | cons n' r =>
          by_cases hn : n' = n
          · subst hn
            have hh : (FSTree.lookup src (path ++ [n'])).isSome = true := by
              rw [append_cons_eq] at hsrc
              exact lookup_append_isSome (path ++ [n']) src r hsrc
            rw [cleanVisit_consFile_keep src path n' c m rest hh]
            constructor
            · intro c' m' h
              rw [lookupKids_cons_self] at h ⊢
              exact h
            · intro s' m' ds h
              rw [lookupKids_cons_self] at h
              cases r with
              | nil => simp [FSTree.lookup] at h
              | cons r0 rr => simp [FSTree.lookup] at h
          · by_cases hh : (FSTree.lookup src (path ++ [n])).isSome = true
            · rw [cleanVisit_consFile_keep src path n c m rest hh]
              rw [lookupKids_cons_other n n' _ _ r hn]
              rw [lookupKids_cons_other n n' _ _ r hn]
              exact ih path (n' :: r) hsrc
            · have hh' : (FSTree.lookup src (path ++ [n])).isSome = false :=
                by simpa using hh
              constructor
              · intro c' m' h
                rw [cleanVisit_fst_consFile_drop src path n c m rest hh']
                rw [lookupKids_cons_other n n' _ _ r hn] at h
                exact (ih path (n' :: r) hsrc).1 c' m' h
              · intro s' m' ds h
                rw [cleanVisit_fst_consFile_drop src path n c m rest hh']
                rw [lookupKids_cons_other n n' _ _ r hn] at h
                exact (ih path (n' :: r) hsrc).2 s' m' ds h
  | consDir n s m ds rest ih1 ih2 =>
      intro path q hsrc
      cases q with
      | nil =>
          constructor
          · intro c' m' h
            simp [lookupKids] at h
          · intro s' m' ds' h
            simp [lookupKids] at h
      | cons n' r =>
          by_cases hn : n' = n
          · subst hn
            have hh : (FSTree.lookup src (path ++ [n'])).isSome = true := by
              rw [append_cons_eq] at hsrc
              exact lookup_append_isSome (path ++ [n']) src r hsrc
            rw [cleanVisit_consDir_keep src path n' s m ds rest hh]
            have hsrc' : (FSTree.lookup src ((path ++ [n']) ++ r)).isSome =
                true := by rwa [append_cons_eq] at hsrc
            constructor
            · intro c' m' h
              rw [lookupKids_cons_self] at h ⊢
              cases r with
              | nil => simp [FSTree.lookup] at h
              | cons r0 rr =>
                  rw [lookup_dir_eq_kids] at h ⊢
                  exact (ih1 (path ++ [n']) (r0 :: rr) hsrc').1 c' m' h
            · intro s' m' ds' h
              rw [lookupKids_cons_self] at h ⊢
              cases r with
              | nil =>
                  simp only [FSTree.lookup, Option.some_inj] at h ⊢
                  injection h with e1 e2 e3
                  subst e1
                  subst e2
                  exact ⟨(cleanVisit src (path ++ [n']) ds).1, rfl⟩
              | cons r0 rr =>
                  rw [lookup_dir_eq_kids] at h ⊢
                  exact (ih1 (path ++ [n']) (r0 :: rr) hsrc').2 s' m' ds' h
          · by_cases hh : (FSTree.lookup src (path ++ [n])).isSome = true
            · rw [cleanVisit_consDir_keep src path n s m ds rest hh]
              rw [lookupKids_cons_other n n' _ _ r hn]
              rw [lookupKids_cons_other n n' _ _ r hn]
              exact ih2 path (n' :: r) hsrc
            · have hh' : (FSTree.lookup src (path ++ [n])).isSome = false :=
                by simpa using hh
              constructor
              · intro c' m' h
                rw [cleanVisit_fst_consDir_drop src path n s m ds rest hh']
                rw [lookupKids_cons_other n n' _ _ r hn] at h
                exact (ih2 path (n' :: r) hsrc).1 c' m' h
              · intro s' m' ds' h
                rw [cleanVisit_fst_consDir_drop src path n s m ds rest hh']
                rw [lookupKids_cons_other n n' _ _ r hn] at h
                exact (ih2 path (n' :: r) hsrc).2 s' m' ds' h

theorem phaseFiles_events (src : FSTree) :
    ∀ (l : List (String × FSTree)) (path : RPath) (ev : RemovalEvent),
      ev ∈ (phaseFiles src path l).2 → FSTree.lookup src ev.path = none := by
  intro l
  induction l with
  | nil => intro path ev h; simp [phaseFiles] at h
  | cons hd rest ih =>
      intro path ev h
      obtain ⟨n, t⟩ := hd
      cases t with
      | file c m =>
          by_cases hh : (FSTree.lookup src (path ++ [n])).isSome = true
          · rw [phaseFiles_consFile_keep src path n c m rest hh] at h
            exact ih path ev h
          · have hh' : (FSTree.lookup src (path ++ [n])).isSome = false := by
              simpa using hh
            rw [phaseFiles_consFile_drop src path n c m rest hh'] at h
            simp only [List.mem_cons] at h
            rcases h with rfl | h
            · simp only [RemovalEvent.path]
              cases hl : FSTree.lookup src (path ++ [n]) with
              | none => rfl
              | some u => rw [hl] at hh'; simp at hh'
            · exact ih path ev h
      | dir s m ds =>
          rw [phaseFiles_consDir src path n s m ds rest] at h
          exact ih path ev h

theorem phaseDirs_events (src : FSTree) :
    ∀ (l : List (String × FSTree)) (path : RPath) (ev : RemovalEvent),
      ev ∈ (phaseDirs src path l).2 → FSTree.lookup src ev.path = none := by
  intro l
  induction l with
  | nil => intro path ev h; simp [phaseDirs] at h
  | cons hd rest ih =>
      intro path ev h
      obtain ⟨n, t⟩ := hd
      cases t with
      | file c m =>
          rw [phaseDirs_consFile src path n c m rest] at h
          exact ih path ev h
      | dir s m ds =>
          by_cases hh : (FSTree.lookup src (path ++ [n])).isSome = true
          · rw [phaseDirs_consDir_keep src path n s m ds rest hh] at h
            exact ih path ev h
          · have hh' : (FSTree.lookup src (path ++ [n])).isSome = false := by
              simpa using hh
            rw [phaseDirs_consDir_drop src path n s m ds rest hh'] at h
            simp only [List.mem_cons] at h
            rcases h with rfl | h
            · simp only [RemovalEvent.path]
              cases hl : FSTree.lookup src (path ++ [n]) with
              | none => rfl
              | some u => rw [hl] at hh'; simp at hh'
            · exact ih path ev h

theorem cleanupKids_events (src : FSTree) :
    ∀ (l : List (String × FSTree)) (path : RPath) (ev : RemovalEvent),
      ev ∈ (cleanupKids src path l).2 → FSTree.lookup src ev.path = none := by
  intro l
  induction l using childrenRec with
  | nil => intro path ev h; simp [cleanupKids] at h
  | consFile n c m rest ih =>
      intro path ev h
      rw [cleanupKids_consFile] at h
      exact ih path ev h
  | consDir n s m ds rest ih1 ih2 =>
      intro path ev h
      rw [cleanupKids_consDir] at h
      simp only [List.mem_append] at h
      rcases h with h | h
      · rw [cleanVisit_eq] at h
        simp only [List.mem_append] at h
        rcases h with (h | h) | h
        · exact ih1 (path ++ [n]) ev h
        · exact phaseFiles_events src _ _ ev h
        · exact phaseDirs_events src _ _ ev h
      · exact ih2 path ev h

theorem cleanVisit_events (src : FSTree) (l : List (String × FSTree))
    (path : RPath) (ev : RemovalEvent)
    (h : ev ∈ (cleanVisit src path l).2) :
    FSTree.lookup src ev.path = none := by
  rw [cleanVisit_eq] at h
  simp only [List.mem_append] at h
  rcases h with (h | h) | h
  · exact cleanupKids_events src l path ev h
  · exact phaseFiles_events src _ _ ev h
  · exact phaseDirs_events src _ _ ev h

/-- C9: the staleness test of cleanup_replica is type-blind — it only
asks os.path.exists at the mirrored source path.  A replica file whose
mirrored source path exists as a directory is kept unchanged with no
removal event for it, and a replica directory whose mirrored source
path exists as a file is kept (with its stat metadata) with no removal
event for it, so the replica does not converge to the source at
type-changed entries. -/
theorem cleanup_type_blind (src rep : FSTree) (q : RPath) (hq : q ≠ []) :
    (∀ s' m' cs' c' mt',
      FSTree.lookup src q = some (.dir s' m' cs') →
      FSTree.lookup rep q = some (.file c' mt') →
      FSTree.lookup (cleanup_replica src rep).1 q = some (.file c' mt') ∧
      ∀ ev ∈ (cleanup_replica src rep).2, ev.path ≠ q) ∧
    (∀ c' mt' s' m' cs',
      FSTree.lookup src q = some (.file c' mt') →
      FSTree.lookup rep q = some (.dir s' m' cs') →
      (∃ cs'', FSTree.lookup (cleanup_replica src rep).1 q =
        some (.dir s' m' cs'')) ∧
      ∀ ev ∈ (cleanup_replica src rep).2, ev.path ≠ q) := by
  obtain ⟨n, r, rfl⟩ : ∃ n r, q = n :: r := by
    cases q with
    | nil => exact absurd rfl hq
    | cons n r => exact ⟨n, r, rfl⟩
  constructor
  · intro s' m' cs' c' mt' h1 h2
    cases rep with
    | file c m => simp [FSTree.lookup] at h2
    | dir s m cs =>
        rw [cleanup_replica_dir]
        have hsome : (FSTree.lookup src ([] ++ n :: r)).isSome = true := by
          simp [h1]
        constructor
        · simp only [lookup_dir_eq_kids]
          rw [lookup_dir_eq_kids] at h2
          exact (cleanVisit_preserve src cs [] (n :: r) hsome).1 c' mt' h2
        · intro ev hev hpath
          have := cleanVisit_events src cs [] ev hev
          rw [hpath, h1] at this
          simp at this
  · intro c' mt' s' m' cs' h1 h2
    cases rep with
    | file c m => simp [FSTree.lookup] at h2
    | dir s m cs =>
        rw [cleanup_replica_dir]
        have hsome : (FSTree.lookup src ([] ++ n :: r)).isSome = true := by
          simp [h1]
        constructor
        · simp only [lookup_dir_eq_kids]
          rw [lookup_dir_eq_kids] at h2
          exact (cleanVisit_preserve src cs [] (n :: r) hsome).2 s' m' cs' h2
        · intro ev hev hpath
          have := cleanVisit_events src cs [] ev hev
          rw [hpath, h1] at this
          simp at this

/-- Witness for cleanup_type_blind: a replica file x whose source path
is a directory survives reconciliation. -/
theorem cleanup_type_blind_witness :
    FSTree.lookup (cleanup_replica (.dir 0 0 [("x", .dir 1 1 [])])
      (.dir 0 0 [("x", .file [1] 2)])).1 ["x"] = some (.file [1] 2) :=
  ((cleanup_type_blind (.dir 0 0 [("x", .dir 1 1 [])])
      (.dir 0 0 [("x", .file [1] 2)]) ["x"] (by simp)).1 1 1 [] [1] 2
    (by simp [FSTree.lookup, childLookup])
    (by simp [FSTree.lookup, childLookup])).1

theorem lookup_append (p : RPath) : ∀ (t : FSTree) (q : RPath),
    FSTree.lookup t (p ++ q) = (FSTree.lookup t p).bind (fun u => u.lookup q) := by
  induction p with
  | nil => intro t q; simp [FSTree.lookup]
  | cons n p' ih =>
      intro t q
      cases t with
      | file c m => simp [FSTree.lookup]
      | dir s m cs =>
          simp only [List.cons_append, FSTree.lookup]
          cases hcl : childLookup cs n with
          | none => simp
          | some u => simp [ih u q]

theorem lookup_file_no_ext (t : FSTree) (p : RPath) (c : List Nat) (m : Nat)
    (h : FSTree.lookup t p = some (.file c m)) :
    ∀ r, r ≠ [] → FSTree.lookup t (p ++ r) = none := by
  intro r hr
  rw [lookup_append, h]
  cases r with
  | nil => exact absurd rfl hr
  | cons a r' => simp [FSTree.lookup]

/-- No duplicate names among siblings, recursively: what a real
directory tree satisfies (a directory cannot contain two entries with
the same name). -/
def wfKids : List (String × FSTree) → Bool
  | [] => true
  | (n, .file _ _) :: rest =>
      ! (rest.map Prod.fst).contains n && wfKids rest
  | (n, .dir _ _ ds) :: rest =>
      (! (rest.map Prod.fst).contains n && wfKids ds) && wfKids rest

/-- A well-formed tree: no directory level contains duplicate names. -/
def wfTree : FSTree → Bool
  | .file _ _ => true
  | .dir _ _ cs => wfKids cs

theorem wfKids_tail : ∀ (l : List (String × FSTree)) (hd : String × FSTree),
    wfKids (hd :: l) = true → wfKids l = true := by
  intro l hd h
  obtain ⟨n, t⟩ := hd
  cases t <;> simp [wfKids] at h <;> tauto

theorem wfKids_head_not_mem : ∀ (l : List (String × FSTree))
    (n : String) (t : FSTree), wfKids ((n, t) :: l) = true →
    ¬ n ∈ l.map Prod.fst := by
  intro l n t h hmem
  simp only [List.mem_map] at hmem
  obtain ⟨⟨a, u⟩, hau, hfst⟩ := hmem
  simp only at hfst
  subst hfst
  cases t <;> simp [wfKids] at h <;> simp_all

theorem wf_mem_childLookup : ∀ (l : List (String × FSTree))
    (n : String) (t : FSTree), wfKids l = true → (n, t) ∈ l →
    childLookup l n = some t := by
  intro l
  induction l with
  | nil => intro n t _ hm; simp at hm
  | cons hd rest ih =>
      intro n t hwf hm
      obtain ⟨n0, t0⟩ := hd
      simp only [List.mem_cons] at hm
      rcases hm with hm | hm
      · injection hm with h1 h2
        subst h1
        subst h2
        simp [childLookup]
      · have hne : ¬ n0 = n := by
          intro he
          subst he
          exact wfKids_head_not_mem rest n0 t0 hwf
            (by exact List.mem_map_of_mem Prod.fst hm)
        simp only [childLookup, if_neg hne]
        exact ih n t (wfKids_tail rest (n0, t0) hwf) hm

theorem wf_child_wf : ∀ (l : List (String × FSTree)) (n : String)
    (s m : Nat) (ds : List (String × FSTree)), wfKids l = true →
    childLookup l n = some (.dir s m ds) → wfKids ds = true := by
  intro l
  induction l with
  | nil => intro n s m ds _ h; simp [childLookup] at h
  | cons hd rest ih =>
      intro n s m ds hwf h
      obtain ⟨n0, t0⟩ := hd
      simp only [childLookup] at h
      by_cases hn : n0 = n
      · rw [if_pos hn] at h
        have h' : t0 = FSTree.dir s m ds := by injection h
        subst h'
        simp [wfKids] at hwf
        tauto
      · rw [if_neg hn] at h
        exact ih n s m ds (wfKids_tail rest (n0, t0) hwf) h

/-- The condition under which the per-file check of sync_directory
does not queue a file: the metadata check reports unchanged and, in
strict mode, the replica entry is a file whose digest equals the
source digest. -/
def SkipCond (strict : Bool) (hash : List Nat → Nat) (rep : FSTree)
    (p : RPath) (c : List Nat) (m : Nat) : Prop :=
  modified_check c m (rep.lookup p) = true ∧
  (strict = true → ∃ rc rm, rep.lookup p = some (.file rc rm) ∧
    hash rc = hash c)

theorem skip_fileNeedsCopy (strict : Bool) (hash : List Nat → Nat)
    (rep : FSTree) (p : RPath) (c : List Nat) (m : Nat)
    (h : SkipCond strict hash rep p c m) :
    ∃ d, fileNeedsCopy strict hash c m (rep.lookup p) = some (false, d) := by
  obtain ⟨h1, h2⟩ := h
  cases strict with
  | false =>
      refine ⟨0, ?_⟩
      simp [fileNeedsCopy, h1]
  | true =>
      obtain ⟨rc, rm, he, hh⟩ := h2 rfl
      refine ⟨2, ?_⟩
      rw [he] at h1 ⊢
      simp [fileNeedsCopy, h1, hh]

theorem fileNeedsCopy_false_skip (strict : Bool) (hash : List Nat → Nat)
    (rep : FSTree) (p : RPath) (c : List Nat) (m : Nat) (d : Nat)
    (h : fileNeedsCopy strict hash c m (rep.lookup p) = some (false, d)) :
    SkipCond strict hash rep p c m := by
  cases strict with
  | false =>
      simp only [fileNeedsCopy, Bool.false_eq_true, if_false,
        Option.some_inj, Prod.mk.injEq] at h
      constructor
      · rcases h with ⟨h1, -⟩
        simpa using h1
      · intro hc
        exact absurd hc (by simp)
  | true =>
      simp only [fileNeedsCopy, if_true] at h
      by_cases hm : modified_check c m (rep.lookup p) = true
      · rw [if_neg (by simp [hm])] at h
        refine ⟨hm, fun _ => ?_⟩
        cases he : rep.lookup p with
        | none => rw [he] at h; simp at h
        | some e =>
            cases e with
            | file rc rm =>
                rw [he] at h
                simp only [Option.some_inj, Prod.mk.injEq] at h
                refine ⟨rc, rm, rfl, ?_⟩
                rcases h with ⟨h1, -⟩
                by_cases hq : hash rc = hash c
                · exact hq
                · exfalso
                  rw [decide_eq_false_iff_not] at h1
                  exact h1 (fun he2 => hq he2.symm)
            | dir s mt cs =>
                rw [he] at h
                simp at h
      · rw [if_pos (by simpa using hm)] at h
        simp at h

theorem skipCond_self (strict : Bool) (hash : List Nat → Nat)
    (rep : FSTree) (p : RPath) (c : List Nat) (m : Nat)
    (h : rep.lookup p = some (.file c m)) :
    SkipCond strict hash rep p c m := by
  constructor
  · simp [modified_check, h, statPair]
  · intro _
    exact ⟨c, m, h, rfl⟩

/-- Entry-level preservation between two replica trees at one path:
file entries preserved exactly, directory entries preserved with their
stat metadata. -/
def EntryPreserved (a b : FSTree) (p : RPath) : Prop :=
  (∀ c m, a.lookup p = some (.file c m) → b.lookup p = some (.file c m)) ∧
  (∀ s mt cs, a.lookup p = some (.dir s mt cs) →
    ∃ cs', b.lookup p = some (.dir s mt cs'))

theorem skipCond_transport (strict : Bool) (hash : List Nat → Nat)
    (a b : FSTree) (p : RPath) (c : List Nat) (m : Nat)
    (hp : EntryPreserved a b p) (h : SkipCond strict hash a p c m) :
    SkipCond strict hash b p c m := by
  obtain ⟨h1, h2⟩ := h
  obtain ⟨p1, p2⟩ := hp
  cases ha : a.lookup p with
  | none => rw [ha] at h1; simp [modified_check] at h1
  | some e =>
      cases e with
      | file rc rm =>
          have hb := p1 rc rm ha
          constructor
          · rw [hb]
            rw [ha] at h1
            exact h1
          · intro hs
            obtain ⟨rc', rm', he', hh'⟩ := h2 hs
            rw [ha] at he'
            injection he' with he''
            injection he'' with e1 e2
            subst e1
            subst e2
            exact ⟨rc, rm, hb, hh'⟩
      | dir s mt cs =>
          obtain ⟨cs', hb⟩ := p2 s mt cs ha
          constructor
          · rw [hb]
            rw [ha] at h1
            simpa [modified_check, statPair] using h1
          · intro hs
            obtain ⟨rc', rm', he', -⟩ := h2 hs
            rw [ha] at he'
            simp at he'

theorem dirGrowth_entryPreserved (a b : FSTree) (h : DirGrowth a b)
    (p : RPath) : EntryPreserved a b p :=
  ⟨fun c m hf => (h.2.1 p c m).mp hf, fun s mt cs hd => h.2.2 p s mt cs hd⟩

theorem writeFile_self : ∀ (p : RPath) (rep rep' : FSTree) (c : List Nat)
    (mt : Nat), writeFile rep p c mt = some rep' →
    FSTree.lookup rep' p = some (.file c mt) := by
  intro p
  induction p with
  | nil => intro rep rep' c mt h; simp [writeFile] at h
  | cons n p0 ih =>
      intro rep rep' c mt h
      cases rep with
      | file a b => simp [writeFile] at h
      | dir s m cs =>
          cases p0 with
          | nil =>
              simp only [writeFile] at h
              cases hcl : childLookup cs n with
              | some t =>
                  cases t with
                  | dir a b ds => simp [hcl] at h
                  | file a b =>
                      simp only [hcl, Option.some_inj] at h
                      subst h
                      simp [FSTree.lookup, childLookup_update_self]
              | none =>
                  simp only [hcl, Option.some_inj] at h
                  subst h
                  simp only [FSTree.lookup, childLookup_append_one, hcl]
                  simp [FSTree.lookup]
          | cons q0 qs =>
              simp only [writeFile] at h
              cases hcl : childLookup cs n with
              | none => simp [hcl] at h
              | some t =>
                  simp only [hcl] at h
                  cases hw : writeFile t (q0 :: qs) c mt with
                  | none => simp [hw] at h
                  | some t' =>
                      simp only [hw, Option.some_inj] at h
                      subst h
                      simp only [FSTree.lookup, childLookup_update_self]
                      exact ih t t' c mt hw

theorem writeFile_preserve : ∀ (p : RPath) (rep rep' : FSTree)
    (c : List Nat) (mt : Nat), writeFile rep p c mt = some rep' →
    ∀ q : RPath, (¬ ∃ r, q = p ++ r) →
    ((∀ c' m', rep.lookup q = some (.file c' m') →
        rep'.lookup q = some (.file c' m')) ∧
      (∀ s' mt' cs', rep.lookup q = some (.dir s' mt' cs') →
        ∃ cs'', rep'.lookup q = some (.dir s' mt' cs'')) ∧
      ((rep.lookup q).isSome = true → (rep'.lookup q).isSome = true)) := by
  intro p
  induction p with
  | nil => intro rep rep' c mt h; simp [writeFile] at h
  | cons n p0 ih =>
      intro rep rep' c mt h q hq
      cases rep with
      | file a b => simp [writeFile] at h
      | dir s m cs =>
          have hq' : ∀ r : RPath, q ≠ n :: r → True := fun _ _ => trivial
          cases q with
          | nil =>
              refine ⟨?_, ?_, ?_⟩
              · intro c' m' hf
                simp [FSTree.lookup] at hf
              · intro s' mt' cs' hd
                simp only [FSTree.lookup, Option.some_inj] at hd
                injection hd with e1 e2 e3
                subst e1
                subst e2
                cases p0 with
                | nil =>
                    simp only [writeFile] at h
                    cases hcl : childLookup cs n with
                    | some t =>
                        cases t with
                        | dir a2 b2 ds2 => simp [hcl] at h
                        | file a2 b2 =>
                            simp only [hcl, Option.some_inj] at h
                            subst h
                            exact ⟨_, rfl⟩
                    | none =>
                        simp only [hcl, Option.some_inj] at h
                        subst h
                        exact ⟨_, rfl⟩
                | cons q0 qs =>
                    simp only [writeFile] at h
                    cases hcl : childLookup cs n with
                    | none => simp [hcl] at h
                    | some t =>
                        simp only [hcl] at h
                        cases hw : writeFile t (q0 :: qs) c mt with
                        | none => simp [hw] at h
                        | some t' =>
                            simp only [hw, Option.some_inj] at h
                            subst h
                            exact ⟨_, rfl⟩
              · intro _
                simp [FSTree.lookup]
          | cons n' r =>
              by_cases hn : n' = n
              · subst hn
                cases p0 with
                | nil =>
                    exfalso
                    exact hq ⟨r, rfl⟩
                | cons q0 qs =>
                    have hqr : ¬ ∃ rr : RPath, r = (q0 :: qs) ++ rr := by
                      intro ⟨rr, hrr⟩
                      exact hq ⟨rr, by rw [hrr]; simp⟩
                    simp only [writeFile] at h
                    cases hcl : childLookup cs n' with
                    | none => simp [hcl] at h
                    | some t =>
                        simp only [hcl] at h
                        cases hw : writeFile t (q0 :: qs) c mt with
                        | none => simp [hw] at h
                        | some t' =>
                            simp only [hw, Option.some_inj] at h
                            subst h
                            have hih := ih t t' c mt hw r hqr
                            refine ⟨?_, ?_, ?_⟩
                            · intro c' m' hf
                              simp only [FSTree.lookup, hcl] at hf
                              simp only [FSTree.lookup,
                                childLookup_update_self]
                              exact hih.1 c' m' hf
                            · intro s' mt' cs' hd
                              simp only [FSTree.lookup, hcl] at hd
                              simp only [FSTree.lookup,
                                childLookup_update_self]
                              exact hih.2.1 s' mt' cs' hd
                            · intro hs
                              simp only [FSTree.lookup, hcl] at hs
                              simp only [FSTree.lookup,
                                childLookup_update_self]
                              exact hih.2.2 hs
              · have hskip : ∀ rep2 : FSTree,
                    writeFile (FSTree.dir s m cs) (n :: p0) c mt =
                      some rep2 →
                    FSTree.lookup rep2 (n' :: r) =
                      FSTree.lookup (FSTree.dir s m cs) (n' :: r) := by
                  intro rep2 h2
                  cases p0 with
                  | nil =>
                      simp only [writeFile] at h2
                      cases hcl : childLookup cs n with
                      | some t =>
                          cases t with
                          | dir a2 b2 ds2 => simp [hcl] at h2
                          | file a2 b2 =>
                              simp only [hcl, Option.some_inj] at h2
                              subst h2
                              simp only [FSTree.lookup,
                                childLookup_update_other cs n n' _ hn]
                      | none =>
                          simp only [hcl, Option.some_inj] at h2
                          subst h2
                          simp only [FSTree.lookup, childLookup_append_one]
                          have hnn : ¬ n = n' := fun he => hn he.symm
                          cases hcl' : childLookup cs n' with
                          | some u => simp
                          | none => simp [hnn]
                  | cons q0 qs =>
                      simp only [writeFile] at h2
                      cases hcl : childLookup cs n with
                      | none => simp [hcl] at h2
                      | some t =>
                          simp only [hcl] at h2
                          cases hw : writeFile t (q0 :: qs) c mt with
                          | none => simp [hw] at h2
                          | some t' =>
                              simp only [hw, Option.some_inj] at h2
                              subst h2
                              simp only [FSTree.lookup,
                                childLookup_update_other cs n n' _ hn]
                have heq := hskip rep' h
                refine ⟨?_, ?_, ?_⟩
                · intro c' m' hf
                  rw [heq]
                  exact hf
                · intro s' mt' cs' hd
                  rw [heq]
                  exact ⟨cs', hd⟩
                · intro hs
                  rw [heq]
                  exact hs

theorem makedirs_isSome : ∀ (p : RPath) (rep rep' : FSTree),
    makedirs rep p = some rep' → (FSTree.lookup rep' p).isSome = true := by
  intro p
  induction p with
  | nil =>
      intro rep rep' h
      simp only [makedirs, Option.some_inj] at h
      subst h
      simp [FSTree.lookup]
  | cons n p0 ih =>
      intro rep rep' h
      cases rep with
      | file a b => simp [makedirs] at h
      | dir s m cs =>
          simp only [makedirs] at h
          cases hcl : childLookup cs n with
          | some u =>
              simp only [hcl] at h
              cases hm : makedirs u p0 with
              | none => simp [hm] at h
              | some u' =>
                  simp only [hm, Option.some_inj] at h
                  subst h
                  simp only [FSTree.lookup, childLookup_update_self]
                  exact ih u u' hm
          | none =>
              simp only [hcl] at h
              cases hm : makedirs (.dir 0 0 []) p0 with
              | none => simp [hm] at h
              | some u' =>
                  simp only [hm, Option.some_inj] at h
                  subst h
                  simp only [FSTree.lookup, childLookup_append_one, hcl]
                  exact ih _ u' hm

theorem ensureDir_isSome (rep : FSTree) (p : RPath) (rep1 : FSTree)
    (evs : List Ev) (h : ensureDir rep p = some (rep1, evs)) :
    (FSTree.lookup rep1 p).isSome = true := by
  unfold ensureDir at h
  by_cases he : (FSTree.lookup rep p).isSome = true
  · rw [if_pos he] at h
    simp only [Option.some_inj, Prod.mk.injEq] at h
    rw [← h.1]
    exact he
  · rw [if_neg he] at h
    cases hm : makedirs rep p with
    | none => rw [hm] at h; simp at h
    | some r' =>
        rw [hm] at h
        simp only [Option.some_inj, Prod.mk.injEq] at h
        rw [← h.1]
        exact makedirs_isSome p rep r' hm

theorem execAll_cons (src rep : FSTree) (p : RPath) (ps : List RPath) :
    execAll src rep (p :: ps) =
      ((execAll src (execTask src rep p).1 ps).1,
        (execTask src rep p).2 ::
          (execAll src (execTask src rep p).1 ps).2) := by
  cases he : execTask src rep p with
  | mk rep1 ok =>
      cases ha : execAll src rep1 ps with
      | mk rep2 os => simp [execAll, he, ha]

theorem execTask_none (src rep : FSTree) (p : RPath)
    (h : src.lookup p = none) : execTask src rep p = (rep, false) := by
  simp [execTask, h]

theorem execTask_srcdir (src rep : FSTree) (p : RPath) (a b : Nat)
    (ds : List (String × FSTree)) (h : src.lookup p = some (.dir a b ds)) :
    execTask src rep p = (rep, false) := by
  simp [execTask, h]

theorem execTask_file_fail (src rep : FSTree) (p : RPath) (c : List Nat)
    (m : Nat) (h1 : src.lookup p = some (.file c m))
    (h2 : writeFile rep p c m = none) :
    execTask src rep p = (rep, false) := by
  simp [execTask, h1, h2]

theorem execTask_file_ok (src rep : FSTree) (p : RPath) (c : List Nat)
    (m : Nat) (rep' : FSTree) (h1 : src.lookup p = some (.file c m))
    (h2 : writeFile rep p c m = some rep') :
    execTask src rep p = (rep', true) := by
  simp [execTask, h1, h2]

theorem execTask_preserve (src rep : FSTree) (p : RPath) (q : RPath)
    (hq : ¬ ∃ r : RPath, q = p ++ r) :
    (∀ c' m', rep.lookup q = some (.file c' m') →
      (execTask src rep p).1.lookup q = some (.file c' m')) ∧
    (∀ s' mt' cs', rep.lookup q = some (.dir s' mt' cs') →
      ∃ cs'', (execTask src rep p).1.lookup q = some (.dir s' mt' cs'')) ∧
    ((rep.lookup q).isSome = true →
      ((execTask src rep p).1.lookup q).isSome = true) := by
  cases hs : src.lookup p with
  | none =>
      rw [execTask_none src rep p hs]
      exact ⟨fun c' m' hf => hf, fun s' mt' cs' hd => ⟨cs', hd⟩,
        fun hh => hh⟩
  | some e =>
      cases e with
      | dir a b ds =>
          rw [execTask_srcdir src rep p a b ds hs]
          exact ⟨fun c' m' hf => hf, fun s' mt' cs' hd => ⟨cs', hd⟩,
            fun hh => hh⟩
      | file c m =>
          cases hw : writeFile rep p c m with
          | none =>
              rw [execTask_file_fail src rep p c m hs hw]
              exact ⟨fun c' m' hf => hf, fun s' mt' cs' hd => ⟨cs', hd⟩,
                fun hh => hh⟩
          | some rep' =>
              rw [execTask_file_ok src rep p c m rep' hs hw]
              exact writeFile_preserve p rep rep' c m hw q hq

theorem execAll_preserve (src : FSTree) : ∀ (ts : List RPath) (rep : FSTree)
    (q : RPath), (∀ p' ∈ ts, ¬ ∃ r : RPath, q = p' ++ r) →
    (∀ c' m', rep.lookup q = some (.file c' m') →
      (execAll src rep ts).1.lookup q = some (.file c' m')) ∧
    (∀ s' mt' cs', rep.lookup q = some (.dir s' mt' cs') →
      ∃ cs'', (execAll src rep ts).1.lookup q = some (.dir s' mt' cs'')) ∧
    ((rep.lookup q).isSome = true →
      ((execAll src rep ts).1.lookup q).isSome = true) := by
  intro ts
  induction ts with
  | nil =>
      intro rep q _
      exact ⟨fun c' m' hf => hf, fun s' mt' cs' hd => ⟨cs', hd⟩,
        fun hh => hh⟩
  | cons p0 ps ih =>
      intro rep q hq
      rw [execAll_cons]
      simp only
      have h0 := execTask_preserve src rep p0 q
        (hq p0 (List.mem_cons_self p0 ps))
      have hrest := ih (execTask src rep p0).1 q
        (fun p' hp' => hq p' (List.mem_cons_of_mem p0 hp'))
      refine ⟨?_, ?_, ?_⟩
      · intro c' m' hf
        exact hrest.1 c' m' (h0.1 c' m' hf)
      · intro s' mt' cs' hd
        obtain ⟨cs'', h2⟩ := h0.2.1 s' mt' cs' hd
        exact hrest.2.1 s' mt' cs'' h2
      · intro hh
        exact hrest.2.2 (h0.2.2 hh)

theorem execAll_correct (src : FSTree) : ∀ (ts : List RPath) (rep : FSTree)
    (q : RPath) (c : List Nat) (m : Nat),
    src.lookup q = some (.file c m) →
    (∀ p' ∈ ts, ∃ c' m', src.lookup p' = some (.file c' m')) →
    rep.lookup q = some (.file c m) →
    (execAll src rep ts).1.lookup q = some (.file c m) := by
  intro ts
  induction ts with
  | nil => intro rep q c m _ _ hr; exact hr
  | cons p0 ps ih =>
      intro rep q c m hsrc hts hr
      rw [execAll_cons]
      simp only
      have hstep : (execTask src rep p0).1.lookup q = some (.file c m) := by
        by_cases hpq : p0 = q
        · subst hpq
          cases hw : writeFile rep p0 c m with
          | none =>
              rw [execTask_file_fail src rep p0 c m hsrc hw]
              exact hr
          | some rep' =>
              rw [execTask_file_ok src rep p0 c m rep' hsrc hw]
              exact writeFile_self p0 rep rep' c m hw
        · obtain ⟨c0, m0, hp0⟩ := hts p0 (List.mem_cons_self p0 ps)
          have hnx : ¬ ∃ r : RPath, q = p0 ++ r := by
            rintro ⟨r, rfl⟩
            cases r with
            | nil => simp at hpq
            | cons a r' =>
                rw [lookup_file_no_ext src p0 c0 m0 hp0 (a :: r')
                  (by simp)] at hsrc
                simp at hsrc
          exact (execTask_preserve src rep p0 q hnx).1 c m hr
      exact ih (execTask src rep p0).1 q c m hsrc
        (fun p' hp' => hts p' (List.mem_cons_of_mem p0 hp')) hstep

theorem execAll_tasks_done (src : FSTree) : ∀ (ts : List RPath)
    (rep : FSTree),
    (∀ o ∈ (execAll src rep ts).2, o = true) →
    (∀ p' ∈ ts, ∃ c' m', src.lookup p' = some (.file c' m')) →
    ∀ p ∈ ts, ∀ c m, src.lookup p = some (.file c m) →
    (execAll src rep ts).1.lookup p = some (.file c m) := by
  intro ts
  induction ts with
  | nil => intro rep _ _ p hp; simp at hp
  | cons p0 ps ih =>
      intro rep hok hts p hp c m hsrc
      rw [execAll_cons] at hok ⊢
      simp only at hok ⊢
      have hok0 : (execTask src rep p0).2 = true :=
        hok _ (List.mem_cons_self _ _)
      have hokrest : ∀ o ∈ (execAll src (execTask src rep p0).1 ps).2,
          o = true := fun o ho => hok o (List.mem_cons_of_mem _ ho)
      simp only [List.mem_cons] at hp
      rcases hp with rfl | hp
      · have hstep : (execTask src rep p).1.lookup p = some (.file c m) := by
          cases hw : writeFile rep p c m with
          | none =>
              rw [execTask_file_fail src rep p c m hsrc hw] at hok0
              simp at hok0
          | some rep' =>
              rw [execTask_file_ok src rep p c m rep' hsrc hw]
              exact writeFile_self p rep rep' c m hw
        exact execAll_correct src ps (execTask src rep p).1 p c m hsrc
          (fun p' hp' => hts p' (List.mem_cons_of_mem p hp')) hstep
      · exact ih (execTask src rep p0).1 hokrest
          (fun p' hp' => hts p' (List.mem_cons_of_mem p0 hp')) p hp c m hsrc

theorem childLookup_mem_names : ∀ (l : List (String × FSTree)) (n : String)
    (t : FSTree), childLookup l n = some t → n ∈ l.map Prod.fst := by
  intro l
  induction l with
  | nil => intro n t h; simp [childLookup] at h
  | cons hd rest ih =>
      intro n t h
      obtain ⟨n0, t0⟩ := hd
      simp only [childLookup] at h
      by_cases hn : n0 = n
      · subst hn
        simp
      · rw [if_neg hn] at h
        simp only [List.map_cons, List.mem_cons]
        exact Or.inr (ih n t h)

theorem lookupKids_elim (l : List (String × FSTree)) (n : String) (r : RPath)
    (u : FSTree) (h : lookupKids l (n :: r) = some u) :
    ∃ t, childLookup l n = some t ∧ t.lookup r = some u := by
  simp only [lookupKids] at h
  cases hcl : childLookup l n with
  | none => rw [hcl] at h; simp at h
  | some t =>
      rw [hcl] at h
      exact ⟨t, rfl, h⟩

theorem lookupKids_lift (l : List (String × FSTree)) (n0 : String)
    (t0 : FSTree) (q : RPath) (u : FSTree)
    (hwf : wfKids ((n0, t0) :: l) = true)
    (h : lookupKids l q = some u) :
    lookupKids ((n0, t0) :: l) q = some u := by
  cases q with
  | nil => simp [lookupKids] at h
  | cons n1 r1 =>
      obtain ⟨t, hcl, hlk⟩ := lookupKids_elim l n1 r1 u h
      have hne : n1 ≠ n0 := by
        intro he
        subst he
        exact wfKids_head_not_mem l n1 t0 hwf (childLookup_mem_names l n1 t hcl)
      rw [lookupKids_cons_other n0 n1 t0 l r1 hne]
      exact h

theorem wfKids_dir_head (n0 : String) (s0 m0 : Nat)
    (cs rest : List (String × FSTree))
    (hwf : wfKids ((n0, .dir s0 m0 cs) :: rest) = true) :
    wfKids cs = true := by
  simp [wfKids] at hwf
  tauto

theorem planFiles_skip (strict : Bool) (hash : List Nat → Nat) :
    ∀ (l : List (String × FSTree)) (path : RPath) (rep : FSTree)
      (ts : List RPath) (evs : List Ev),
      planFiles strict hash path l rep = some (ts, evs) →
      ∀ n c m, childLookup l n = some (.file c m) →
      (path ++ [n]) ∈ ts ∨ SkipCond strict hash rep (path ++ [n]) c m := by
  intro l
  induction l with
  | nil => intro path rep ts evs h n c m hcl; simp [childLookup] at hcl
  | cons hd rest ih =>
      intro path rep ts evs h n c m hcl
      obtain ⟨n0, t0⟩ := hd
      cases t0 with
      | dir s0 m0 ds =>
          simp only [planFiles] at h
          simp only [childLookup] at hcl
          by_cases hn : n0 = n
          · rw [if_pos hn] at hcl; simp at hcl
          · rw [if_neg hn] at hcl
            exact ih path rep ts evs h n c m hcl
      | file c0 m0 =>
          simp only [planFiles] at h
          cases hfc : fileNeedsCopy strict hash c0 m0
              (rep.lookup (path ++ [n0])) with
          | none => simp [hfc] at h
          | some qd =>
              obtain ⟨q, d⟩ := qd
              simp only [hfc] at h
              cases hrest : planFiles strict hash path rest rep with
              | none => simp [hrest] at h
              | some pr =>
                  obtain ⟨ts', evs'⟩ := pr
                  simp only [hrest, Option.some_inj, Prod.mk.injEq] at h
                  obtain ⟨hts, -⟩ := h
                  simp only [childLookup] at hcl
                  by_cases hn : n0 = n
                  · subst hn
                    rw [if_pos rfl] at hcl
                    injection hcl with hcl'
                    injection hcl' with e1 e2
                    subst e1
                    subst e2
                    cases q with
                    | true =>
                        left
                        rw [← hts]
                        simp
                    | false =>
                        right
                        exact fileNeedsCopy_false_skip strict hash rep
                          (path ++ [n0]) c0 m0 d hfc
                  · rw [if_neg hn] at hcl
                    rcases ih path rep ts' evs' hrest n c m hcl with hl | hr
                    · left
                      rw [← hts]
                      cases q <;> simp [hl]
                    · right
                      exact hr

theorem planFiles_tasks (strict : Bool) (hash : List Nat → Nat) :
    ∀ (l : List (String × FSTree)) (path : RPath) (rep : FSTree)
      (ts : List RPath) (evs : List Ev), wfKids l = true →
      planFiles strict hash path l rep = some (ts, evs) →
      ∀ p ∈ ts, ∃ n c m, p = path ++ [n] ∧
        childLookup l n = some (.file c m) := by
  intro l
  induction l with
  | nil =>
      intro path rep ts evs _ h p hp
      simp only [planFiles, Option.some_inj, Prod.mk.injEq] at h
      rw [← h.1] at hp
      simp at hp
  | cons hd rest ih =>
      intro path rep ts evs hwf h p hp
      obtain ⟨n0, t0⟩ := hd
      have hlift : ∀ n c m, childLookup rest n = some (.file c m) →
          childLookup ((n0, t0) :: rest) n = some (.file c m) := by
        intro n c m hcl
        have hne : ¬ n0 = n := by
          intro he
          subst he
          exact wfKids_head_not_mem rest n0 t0 hwf
            (childLookup_mem_names rest n0 _ hcl)
        simp only [childLookup, if_neg hne]
        exact hcl
      cases t0 with
      | dir s0 m0 ds =>
          simp only [planFiles] at h
          obtain ⟨n, c, m, rfl, hcl⟩ := ih path rep ts evs
            (wfKids_tail rest (n0, .dir s0 m0 ds) hwf) h p hp
          exact ⟨n, c, m, rfl, hlift n c m hcl⟩
      | file c0 m0 =>
          simp only [planFiles] at h
          cases hfc : fileNeedsCopy strict hash c0 m0
              (rep.lookup (path ++ [n0])) with
          | none => simp [hfc] at h
          | some qd =>
              obtain ⟨q, d⟩ := qd
              simp only [hfc] at h
              cases hrest : planFiles strict hash path rest rep with
              | none => simp [hrest] at h
              | some pr =>
                  obtain ⟨ts', evs'⟩ := pr
                  simp only [hrest, Option.some_inj, Prod.mk.injEq] at h
                  obtain ⟨hts, -⟩ := h
                  rw [← hts] at hp
                  simp only [List.mem_append] at hp
                  rcases hp with hp | hp
                  · cases q with
                    | false => simp at hp
                    | true =>
                        simp at hp
                        subst hp
                        exact ⟨n0, c0, m0, rfl, by simp [childLookup]⟩
                  · obtain ⟨n, c, m, rfl, hcl⟩ := ih path rep ts' evs'
                      (wfKids_tail rest (n0, .file c0 m0) hwf) hrest p hp
                    exact ⟨n, c, m, rfl, hlift n c m hcl⟩

theorem planDirs_sound (strict : Bool) (hash : List Nat → Nat) :
    ∀ (l : List (String × FSTree)) (path : RPath) (rep rep1 : FSTree)
      (ts : List RPath) (evs : List Ev), wfKids l = true →
      planDirs strict hash path l rep = some (rep1, ts, evs) →
      (∀ p ∈ ts, ∃ q, p = path ++ q ∧
        (∃ c m, lookupKids l q = some (.file c m))) ∧
      (∀ n r c m, lookupKids l (n :: r) = some (.file c m) → r ≠ [] →
        (path ++ (n :: r)) ∈ ts ∨
          SkipCond strict hash rep1 (path ++ (n :: r)) c m) ∧
      (∀ n r s' m' ds', lookupKids l (n :: r) = some (.dir s' m' ds') →
        (FSTree.lookup rep1 (path ++ (n :: r))).isSome = true) := by
  intro l
  induction l using childrenRec with
  | nil =>
      intro path rep rep1 ts evs _ h
      simp only [planDirs, Option.some_inj, Prod.mk.injEq] at h
      obtain ⟨-, h2, -⟩ := h
      refine ⟨?_, ?_, ?_⟩
      · intro p hp
        rw [← h2] at hp
        simp at hp
      · intro n r c m hlk
        simp [lookupKids, childLookup] at hlk
      · intro n r s' m' ds' hlk
        simp [lookupKids, childLookup] at hlk
  | consFile n0 c0 m0 rest ih =>
      intro path rep rep1 ts evs hwf h
      simp only [planDirs] at h
      obtain ⟨hb, hc, hd⟩ := ih path rep rep1 ts evs
        (wfKids_tail rest (n0, .file c0 m0) hwf) h
      refine ⟨?_, ?_, ?_⟩
      · intro p hp
        obtain ⟨q, rfl, c, m, hlk⟩ := hb p hp
        exact ⟨q, rfl, c, m,
          lookupKids_lift rest n0 (.file c0 m0) q _ hwf hlk⟩
      · intro n r c m hlk hr
        by_cases hn : n = n0
        · subst hn
          rw [lookupKids_cons_self] at hlk
          cases r with
          | nil => exact absurd rfl hr
          | cons a r' => simp [FSTree.lookup] at hlk
        · rw [lookupKids_cons_other n0 n _ rest r hn] at hlk
          exact hc n r c m hlk hr
      · intro n r s' m' ds' hlk
        by_cases hn : n = n0
        · subst hn
          rw [lookupKids_cons_self] at hlk
          cases r with
          | nil => simp [FSTree.lookup] at hlk
          | cons a r' => simp [FSTree.lookup] at hlk
        · rw [lookupKids_cons_other n0 n _ rest r hn] at hlk
          exact hd n r s' m' ds' hlk
  | consDir n0 s0 m0 cs rest ih1 ih2 =>
      intro path rep rep1 ts evs hwf h
      simp only [planDirs] at h
      cases he : ensureDir rep (path ++ [n0]) with
      | none => simp [he] at h
      | some pr =>
          obtain ⟨repA, evs0⟩ := pr
          simp only [he] at h
          cases hf : planFiles strict hash (path ++ [n0]) cs repA with
          | none => simp [hf] at h
          | some pf =>
              obtain ⟨ts1, evs1⟩ := pf
              simp only [hf] at h
              cases hdd : planDirs strict hash (path ++ [n0]) cs repA with
              | none => simp [hdd] at h
              | some pd =>
                  obtain ⟨repB, ts2, evs2⟩ := pd
                  simp only [hdd] at h
                  cases hr : planDirs strict hash path rest repB with
                  | none => simp [hr] at h
                  | some prr =>
                      obtain ⟨repC, ts3, evs3⟩ := prr
                      simp only [hr, Option.some_inj, Prod.mk.injEq] at h
                      obtain ⟨h1, h2, -⟩ := h
                      subst h1
                      have hwfcs : wfKids cs = true :=
                        wfKids_dir_head n0 s0 m0 cs rest hwf
                      have hwfrest : wfKids rest = true :=
                        wfKids_tail rest (n0, .dir s0 m0 cs) hwf
                      have gB := planDirs_growth strict hash cs
                        (path ++ [n0]) repA repB ts2 evs2 hdd
                      have gRest := planDirs_growth strict hash rest
                        path repB repC ts3 evs3 hr
                      obtain ⟨ihb1, ihc1, ihd1⟩ := ih1 (path ++ [n0]) repA
                        repB ts2 evs2 hwfcs hdd
                      obtain ⟨ihb2, ihc2, ihd2⟩ := ih2 path repB repC
                        ts3 evs3 hwfrest hr
                      refine ⟨?_, ?_, ?_⟩
                      · intro p hp
                        rw [← h2] at hp
                        simp only [List.mem_append] at hp
                        rcases hp with (hp | hp) | hp
                        · obtain ⟨n2, c, m, rfl, hcl⟩ :=
                            planFiles_tasks strict hash cs (path ++ [n0])
                              repA ts1 evs1 hwfcs hf p hp
                          refine ⟨n0 :: [n2], by simp, c, m, ?_⟩
                          rw [lookupKids_cons_self]
                          simp only [FSTree.lookup, hcl]
                        · obtain ⟨q2, rfl, c, m, hlk⟩ := ihb1 p hp
                          refine ⟨n0 :: q2, by simp, c, m, ?_⟩
                          rw [lookupKids_cons_self]
                          cases q2 with
                          | nil => simp [lookupKids] at hlk
                          | cons n3 r3 =>
                              rw [lookup_dir_eq_kids]
                              exact hlk
                        · obtain ⟨q3, rfl, c, m, hlk⟩ := ihb2 p hp
                          exact ⟨q3, rfl, c, m,
                            lookupKids_lift rest n0 _ q3 _ hwf hlk⟩
                      · intro n r c m hlk hrne
                        by_cases hn : n = n0
                        · subst hn
                          rw [lookupKids_cons_self] at hlk
                          cases r with
                          | nil => exact absurd rfl hrne
                          | cons r0 rr =>
                              rw [lookup_dir_eq_kids] at hlk
                              cases rr with
                              | nil =>
                                  obtain ⟨t, hcl, hlk2⟩ :=
                                    lookupKids_elim cs r0 [] _ hlk
                                  simp only [FSTree.lookup,
                                    Option.some_inj] at hlk2
                                  subst hlk2
                                  rcases planFiles_skip strict hash cs
                                      (path ++ [n]) repA ts1 evs1 hf r0 c m
                                      hcl with hin | hskip
                                  · left
                                    rw [← h2]
                                    simp only [List.mem_append]
                                    left
                                    left
                                    have : path ++ [n, r0] =
                                        (path ++ [n]) ++ [r0] := by simp
                                    rw [this]
                                    exact hin
                                  · right
                                    have hskipB := skipCond_transport strict
                                      hash repA repB _ c m
                                      (dirGrowth_entryPreserved repA repB gB _)
                                      hskip
                                    have hskipC := skipCond_transport strict
                                      hash repB repC _ c m
                                      (dirGrowth_entryPreserved repB repC
                                        gRest _) hskipB
                                    have : path ++ [n, r0] =
                                        (path ++ [n]) ++ [r0] := by simp
                                    rw [this]
                                    exact hskipC
                              | cons r1 rr2 =>
                                  rcases ihc1 r0 (r1 :: rr2) c m hlk
                                      (by simp) with hin | hskip
                                  · left
                                    rw [← h2]
                                    simp only [List.mem_append]
                                    left
                                    right
                                    have : path ++ n :: r0 :: r1 :: rr2 =
                                        (path ++ [n]) ++ r0 :: r1 :: rr2 := by
                                      simp
                                    rw [this]
                                    exact hin
                                  · right
                                    have hskipC := skipCond_transport strict
                                      hash repB repC _ c m
                                      (dirGrowth_entryPreserved repB repC
                                        gRest _) hskip
                                    have : path ++ n :: r0 :: r1 :: rr2 =
                                        (path ++ [n]) ++ r0 :: r1 :: rr2 := by
                                      simp
                                    rw [this]
                                    exact hskipC
                        · rw [lookupKids_cons_other n0 n _ rest r hn] at hlk
                          rcases ihc2 n r c m hlk hrne with hin | hskip
                          · left
                            rw [← h2]
                            simp only [List.mem_append]
                            right
                            exact hin
                          · right
                            exact hskip
                      · intro n r s' m' ds' hlk
                        by_cases hn : n = n0
                        · subst hn
                          rw [lookupKids_cons_self] at hlk
                          cases r with
                          | nil =>
                              have hA : (FSTree.lookup repA
                                  (path ++ [n])).isSome = true :=
                                ensureDir_isSome rep (path ++ [n]) repA
                                  evs0 he
                              exact gRest.1 _ (gB.1 _ hA)
                          | cons r0 rr =>
                              rw [lookup_dir_eq_kids] at hlk
                              have hB := ihd1 r0 rr s' m' ds' hlk
                              have : path ++ n :: r0 :: rr =
                                  (path ++ [n]) ++ r0 :: rr := by simp
                              rw [this]
                              exact gRest.1 _ hB
                        · rw [lookupKids_cons_other n0 n _ rest r hn] at hlk
                          exact ihd2 n r s' m' ds' hlk

/-- Every entry of the list, recursively, has an existing mirrored
source path: the fixed points of one cleanup walk. -/
def stableKids (src : FSTree) (path : RPath) :
    List (String × FSTree) → Bool
  | [] => true
  | (n, .file _ _) :: rest =>
      (FSTree.lookup src (path ++ [n])).isSome && stableKids src path rest
  | (n, .dir _ _ ds) :: rest =>
      ((FSTree.lookup src (path ++ [n])).isSome &&
        stableKids src (path ++ [n]) ds) && stableKids src path rest

theorem stableKids_clean (src : FSTree) : ∀ (l : List (String × FSTree))
    (path : RPath), stableKids src path l = true →
    cleanVisit src path l = (l, []) := by
  intro l
  induction l using childrenRec with
  | nil =>
      intro path _
      simp [cleanVisit_eq, cleanupKids, phaseFiles, phaseDirs]
  | consFile n c m rest ih =>
      intro path hst
      simp only [stableKids, Bool.and_eq_true] at hst
      rw [cleanVisit_consFile_keep src path n c m rest hst.1]
      rw [ih path hst.2]
  | consDir n s m ds rest ih1 ih2 =>
      intro path hst
      simp only [stableKids, Bool.and_eq_true] at hst
      rw [cleanVisit_consDir_keep src path n s m ds rest hst.1.1]
      rw [ih1 (path ++ [n]) hst.1.2, ih2 path hst.2]
      simp

theorem cleanVisit_stable (src : FSTree) : ∀ (l : List (String × FSTree))
    (path : RPath), stableKids src path ((cleanVisit src path l).1) = true := by
  intro l
  induction l using childrenRec with
  | nil =>
      intro path
      simp [cleanVisit_eq, cleanupKids, phaseFiles, phaseDirs, stableKids]
  | consFile n c m rest ih =>
      intro path
      by_cases hh : (FSTree.lookup src (path ++ [n])).isSome = true
      · rw [cleanVisit_consFile_keep src path n c m rest hh]
        simp only [stableKids, Bool.and_eq_true]
        exact ⟨hh, ih path⟩
      · have hh' : (FSTree.lookup src (path ++ [n])).isSome = false := by
          simpa using hh
        rw [cleanVisit_fst_consFile_drop src path n c m rest hh']
        exact ih path
  | consDir n s m ds rest ih1 ih2 =>
      intro path
      by_cases hh : (FSTree.lookup src (path ++ [n])).isSome = true
      · rw [cleanVisit_consDir_keep src path n s m ds rest hh]
        simp only [stableKids, Bool.and_eq_true]
        exact ⟨⟨hh, ih1 (path ++ [n])⟩, ih2 path⟩
      · have hh' : (FSTree.lookup src (path ++ [n])).isSome = false := by
          simpa using hh
        rw [cleanVisit_fst_consDir_drop src path n s m ds rest hh']
        exact ih2 path

theorem cleanup_replica_idem (src rep : FSTree) :
    cleanup_replica src ((cleanup_replica src rep).1) =
      ((cleanup_replica src rep).1, []) := by
  cases rep with
  | file c m => simp [cleanup_replica]
  | dir s m cs =>
      rw [cleanup_replica_dir]
      simp only
      rw [cleanup_replica_dir]
      rw [stableKids_clean src ((cleanVisit src [] cs).1) []
        (cleanVisit_stable src cs [])]

theorem lookup_child (src : FSTree) (p : RPath) (a b : Nat)
    (l : List (String × FSTree)) (n : String) (t : FSTree)
    (hp : FSTree.lookup src p = some (.dir a b l))
    (hcl : childLookup l n = some t) :
    FSTree.lookup src (p ++ [n]) = some t := by
  rw [lookup_append, hp]
  simp [FSTree.lookup, hcl]

/-- The planner finds nothing to do: every file below is unchanged
(SkipCond) and every mirrored directory below already exists. -/
def planReady (strict : Bool) (hash : List Nat → Nat) (rep : FSTree)
    (path : RPath) : List (String × FSTree) → Prop
  | [] => True
  | (n, .file c m) :: rest =>
      SkipCond strict hash rep (path ++ [n]) c m ∧
        planReady strict hash rep path rest
  | (n, .dir _ _ ds) :: rest =>
      ((FSTree.lookup rep (path ++ [n])).isSome = true ∧
        planReady strict hash rep (path ++ [n]) ds) ∧
        planReady strict hash rep path rest

theorem planReady_files (strict : Bool) (hash : List Nat → Nat)
    (rep : FSTree) : ∀ (l : List (String × FSTree)) (path : RPath),
    planReady strict hash rep path l →
    ∀ n c m, (n, FSTree.file c m) ∈ l →
    SkipCond strict hash rep (path ++ [n]) c m := by
  intro l
  induction l with
  | nil => intro path _ n c m hm; simp at hm
  | cons hd rest ih =>
      intro path hr n c m hm
      obtain ⟨n0, t0⟩ := hd
      simp only [List.mem_cons] at hm
      cases t0 with
      | file c0 m0 =>
          simp only [planReady] at hr
          rcases hm with hm | hm
          · injection hm with e1 e2
            subst e1
            injection e2 with e3 e4
            subst e3
            subst e4
            exact hr.1
          · exact ih path hr.2 n c m hm
      | dir s0 m0 ds =>
          simp only [planReady] at hr
          rcases hm with hm | hm
          · injection hm with e1 e2
            simp at e2
          · exact ih path hr.2 n c m hm

theorem planFiles_noop (strict : Bool) (hash : List Nat → Nat) :
    ∀ (l : List (String × FSTree)) (path : RPath) (rep : FSTree),
    (∀ n c m, (n, FSTree.file c m) ∈ l →
      SkipCond strict hash rep (path ++ [n]) c m) →
    ∃ evs, planFiles strict hash path l rep = some ([], evs) := by
  intro l
  induction l with
  | nil => intro path rep _; exact ⟨[], rfl⟩
  | cons hd rest ih =>
      intro path rep hsk
      obtain ⟨n0, t0⟩ := hd
      cases t0 with
      | dir s0 m0 ds =>
          obtain ⟨evs, he⟩ := ih path rep
            (fun n c m hm => hsk n c m (List.mem_cons_of_mem _ hm))
          exact ⟨evs, by simp only [planFiles]; exact he⟩
      | file c0 m0 =>
          have hsk0 := hsk n0 c0 m0 (List.mem_cons_self _ _)
          obtain ⟨d, hfc⟩ := skip_fileNeedsCopy strict hash rep
            (path ++ [n0]) c0 m0 hsk0
          obtain ⟨evs, he⟩ := ih path rep
            (fun n c m hm => hsk n c m (List.mem_cons_of_mem _ hm))
          refine ⟨.checkEv (path ++ [n0]) :: evs, ?_⟩
          simp only [planFiles, hfc, he]
          simp

theorem planDirs_noop (strict : Bool) (hash : List Nat → Nat)
    (rep : FSTree) : ∀ (l : List (String × FSTree)) (path : RPath),
    planReady strict hash rep path l →
    ∃ evs, planDirs strict hash path l rep = some (rep, [], evs) := by
  intro l
  induction l using childrenRec with
  | nil => intro path _; exact ⟨[], rfl⟩
  | consFile n c m rest ih =>
      intro path hr
      simp only [planReady] at hr
      obtain ⟨evs, he⟩ := ih path hr.2
      exact ⟨evs, by simp only [planDirs]; exact he⟩
  | consDir n s m ds rest ih1 ih2 =>
      intro path hr
      simp only [planReady] at hr
      obtain ⟨⟨hsome, hready⟩, hrest⟩ := hr
      have hens : ensureDir rep (path ++ [n]) = some (rep, []) := by
        unfold ensureDir
        rw [if_pos hsome]
      obtain ⟨evs1, hf⟩ := planFiles_noop strict hash ds (path ++ [n]) rep
        (planReady_files strict hash rep ds (path ++ [n]) hready)
      obtain ⟨evs2, hd⟩ := ih1 (path ++ [n]) hready
      obtain ⟨evs3, hdr⟩ := ih2 path hrest
      refine ⟨[] ++ evs1 ++ evs2 ++ evs3, ?_⟩
      simp only [planDirs, hens, hf, hd, hdr]
      simp

theorem planReady_build (strict : Bool) (hash : List Nat → Nat)
    (src rep : FSTree)
    (hskip : ∀ q c m, src.lookup q = some (.file c m) →
      SkipCond strict hash rep q c m)
    (hdir : ∀ q s' m' ds', q ≠ [] → src.lookup q = some (.dir s' m' ds') →
      (rep.lookup q).isSome = true) :
    ∀ (l : List (String × FSTree)) (path : RPath), wfKids l = true →
    (∀ n t, (n, t) ∈ l → FSTree.lookup src (path ++ [n]) = some t) →
    planReady strict hash rep path l := by
  intro l
  induction l using childrenRec with
  | nil =>
      intro path _ _
      simp [planReady]
  | consFile n c m rest ih =>
      intro path hwf hmem
      simp only [planReady]
      constructor
      · exact hskip (path ++ [n]) c m (hmem n _ (List.mem_cons_self _ _))
      · exact ih path (wfKids_tail rest _ hwf)
          (fun n' t' hm => hmem n' t' (List.mem_cons_of_mem _ hm))
  | consDir n s m ds rest ih1 ih2 =>
      intro path hwf hmem
      have hsrc : FSTree.lookup src (path ++ [n]) = some (.dir s m ds) :=
        hmem n _ (List.mem_cons_self _ _)
      simp only [planReady]
      refine ⟨⟨?_, ?_⟩, ?_⟩
      · exact hdir (path ++ [n]) s m ds (by simp) hsrc
      · refine ih1 (path ++ [n]) (wfKids_dir_head n s m ds rest hwf) ?_
        intro n2 t2 hm2
        exact lookup_child src (path ++ [n]) s m ds n2 t2 hsrc
          (wf_mem_childLookup ds n2 t2
            (wfKids_dir_head n s m ds rest hwf) hm2)
      · exact ih2 path (wfKids_tail rest _ hwf)
          (fun n' t' hm => hmem n' t' (List.mem_cons_of_mem _ hm))

theorem sync_directory_sound (strict : Bool) (hash : List Nat → Nat)
    (src rep rep1 : FSTree) (ts : List RPath) (evs : List Ev)
    (hwf : wfTree src = true)
    (h : sync_directory strict hash src rep = some (rep1, ts, evs)) :
    DirGrowth rep rep1 ∧
    (∀ p ∈ ts, ∃ c m, src.lookup p = some (.file c m)) ∧
    (∀ q c m, src.lookup q = some (.file c m) →
      q ∈ ts ∨ SkipCond strict hash rep1 q c m) ∧
    (∀ q s' m' ds', q ≠ [] → src.lookup q = some (.dir s' m' ds') →
      (FSTree.lookup rep1 q).isSome = true) := by
  unfold sync_directory at h
  cases src with
  | file c m => simp at h
  | dir ss sm scs =>
      cases rep with
      | file c m => simp at h
      | dir rs rm rcs =>
          simp only at h
          cases hf : planFiles strict hash [] scs (.dir rs rm rcs) with
          | none => rw [hf] at h; simp at h
          | some pf =>
              obtain ⟨ts0, evs0⟩ := pf
              rw [hf] at h
              simp only at h
              cases hd : planDirs strict hash [] scs (.dir rs rm rcs) with
              | none => rw [hd] at h; simp at h
              | some pd =>
                  obtain ⟨repA, ts1, evs1⟩ := pd
                  rw [hd] at h
                  simp only [Option.some_inj, Prod.mk.injEq] at h
                  obtain ⟨h1, h2, -⟩ := h
                  subst h1
                  have hwfs : wfKids scs = true := hwf
                  have hg := planDirs_growth strict hash scs [] _ repA
                    ts1 evs1 hd
                  obtain ⟨sb, sc, sd⟩ := planDirs_sound strict hash scs []
                    (.dir rs rm rcs) repA ts1 evs1 hwfs hd
                  refine ⟨hg, ?_, ?_, ?_⟩
                  · intro p hp
                    rw [← h2] at hp
                    simp only [List.mem_append] at hp
                    rcases hp with hp | hp
                    · obtain ⟨n, c, m, rfl, hcl⟩ := planFiles_tasks strict
                        hash scs [] _ ts0 evs0 hwfs hf p hp
                      refine ⟨c, m, ?_⟩
                      simp only [List.nil_append, FSTree.lookup, hcl]
                    · obtain ⟨q, hpq, c, m, hlk⟩ := sb p hp
                      refine ⟨c, m, ?_⟩
                      rw [show p = q from by simpa using hpq]
                      cases q with
                      | nil => simp [lookupKids] at hlk
                      | cons n r =>
                          rw [lookup_dir_eq_kids]
                          exact hlk
                  · intro q c m hq
                    cases q with
                    | nil => simp [FSTree.lookup] at hq
                    | cons n r =>
                        cases r with
                        | nil =>
                            have hcl : childLookup scs n =
                                some (.file c m) := by
                              simp only [FSTree.lookup] at hq
                              cases hcl' : childLookup scs n with
                              | none => rw [hcl'] at hq; simp at hq
                              | some t =>
                                  rw [hcl'] at hq
                                  simp only [FSTree.lookup,
                                    Option.some_inj] at hq
                                  rw [hq]
                            rcases planFiles_skip strict hash scs []
                                (.dir rs rm rcs) ts0 evs0 hf n c m hcl with
                              hin | hskip
                            · left
                              rw [← h2]
                              simp only [List.mem_append]
                              left
                              simpa using hin
                            · right
                              have := skipCond_transport strict hash _ repA
                                ([] ++ [n]) c m
                                (dirGrowth_entryPreserved _ repA hg _) hskip
                              simpa using this
                        | cons r0 rr =>
                            rw [lookup_dir_eq_kids] at hq
                            rcases sc n (r0 :: rr) c m hq (by simp) with
                              hin | hskip
                            · left
                              rw [← h2]
                              simp only [List.mem_append]
                              right
                              simpa using hin
                            · right
                              simpa using hskip
                  · intro q s' m' ds' hne hq
                    cases q with
                    | nil => exact absurd rfl hne
                    | cons n r =>
                        rw [lookup_dir_eq_kids] at hq
                        have := sd n r s' m' ds' hq
                        simpa using this

/-- C5: idempotence of a pass.  For every well-formed source tree (no
directory level contains two entries with the same name, as on a real
filesystem) and any replica tree, if a synchronization pass of the
extended variant completes with every copy outcome Succeeded, then an
immediately following pass over the unchanged source produces zero
copy tasks, zero outcomes and zero removal events: the copy step
transferred content and modification timestamp, so every metadata
check reports unchanged (and in strict mode the digests agree), and
reconciliation finds no stale entries. -/
theorem synchronization_idempotent (strict : Bool) (hash : List Nat → Nat)
    (src rep rep3 : FSTree) (tasks : List RPath) (outcomes : List Bool)
    (removals : List RemovalEvent) (trace : List Ev)
    (hwf : wfTree src = true)
    (h : synchronization strict hash src rep =
      some (rep3, tasks, outcomes, removals, trace))
    (hok : ∀ o ∈ outcomes, o = true) :
    ∃ rep4 trace2, synchronization strict hash src rep3 =
      some (rep4, [], [], [], trace2) := by
  unfold synchronization at h
  cases hs : sync_directory strict hash src rep with
  | none => rw [hs] at h; simp at h
  | some sd =>
      obtain ⟨rep1, tasks1, pevs⟩ := sd
      rw [hs] at h
      simp only at h
      cases hexec : execAll src rep1 tasks1 with
      | mk rep2 outs =>
          rw [hexec] at h
          simp only at h
          cases hcl : cleanup_replica src rep2 with
          | mk rep3' removals' =>
              rw [hcl] at h
              simp only [Option.some_inj, Prod.mk.injEq] at h
              obtain ⟨e1, e2, e3, e4, -⟩ := h
              subst e1
              subst e2
              subst e3
              subst e4
              obtain ⟨hg, hS1, hS2, hS3⟩ := sync_directory_sound strict hash
                src rep rep1 tasks1 pevs hwf hs
              -- src and rep are directories
              obtain ⟨ss, sm, scs, rfl⟩ : ∃ a b cs, src = FSTree.dir a b cs := by
                cases src with
                | file c m => simp [sync_directory] at hs
                | dir a b cs => exact ⟨a, b, cs, rfl⟩
              obtain ⟨rs, rm, rcs, rfl⟩ : ∃ a b cs, rep = FSTree.dir a b cs := by
                cases rep with
                | file c m => simp [sync_directory] at hs
                | dir a b cs => exact ⟨a, b, cs, rfl⟩
              have hwfs : wfKids scs = true := hwf
              -- every task path is nonempty
              have htne : ∀ p ∈ tasks1, p ≠ [] := by
                intro p hp he
                subst he
                obtain ⟨c, m, hc⟩ := hS1 [] hp
                simp [FSTree.lookup] at hc
              -- rep1 is a directory with the replica root's metadata
              obtain ⟨cs1, hrep1⟩ : ∃ cs1, rep1 = FSTree.dir rs rm cs1 := by
                obtain ⟨cs', hl⟩ := hg.2.2 [] rs rm rcs
                  (by simp [FSTree.lookup])
                refine ⟨cs', ?_⟩
                simp only [FSTree.lookup, Option.some_inj] at hl
                exact hl
              -- rep2 is a directory
              obtain ⟨cs2, hrep2⟩ : ∃ cs2, rep2 = FSTree.dir rs rm cs2 := by
                have hcond : ∀ p' ∈ tasks1, ¬ ∃ r : RPath, ([] : RPath) =
                    p' ++ r := by
                  intro p' hp' ⟨r, hr⟩
                  have : p' = [] := by
                    cases p' with
                    | nil => rfl
                    | cons a l => simp at hr
                  exact htne p' hp' this
                have hpre := (execAll_preserve (FSTree.dir ss sm scs) tasks1 rep1 [] hcond).2.1
                  rs rm cs1 (by rw [hrep1]; simp [FSTree.lookup])
                obtain ⟨cs'', hcs⟩ := hpre
                rw [hexec] at hcs
                simp only [FSTree.lookup, Option.some_inj] at hcs
                exact ⟨cs'', hcs⟩
              -- rep3' is a directory
              obtain ⟨cs3, hrep3⟩ : ∃ cs3, rep3' = FSTree.dir rs rm cs3 := by
                rw [hrep2] at hcl
                rw [cleanup_replica_dir] at hcl
                injection hcl with hcl1 hcl2
                exact ⟨_, hcl1.symm⟩
              -- condition for executor preservation at a non-task path
              have hnotext : ∀ q, (FSTree.lookup (FSTree.dir ss sm scs)
                  q).isSome = true → q ∉ tasks1 →
                  ∀ p' ∈ tasks1, ¬ ∃ r : RPath, q = p' ++ r := by
                intro q hq hqn p' hp' ⟨r, hr⟩
                obtain ⟨c', m', hp'f⟩ := hS1 p' hp'
                cases r with
                | nil =>
                    rw [List.append_nil] at hr
                    subst hr
                    exact hqn hp'
                | cons a r' =>
                    rw [hr, lookup_file_no_ext _ p' c' m' hp'f (a :: r')
                      (by simp)] at hq
                    simp at hq
              -- all source files report unchanged against rep3'
              have hskipAll : ∀ q c m, FSTree.lookup (FSTree.dir ss sm scs) q =
                  some (.file c m) → SkipCond strict hash rep3' q c m := by
                intro q c m hq
                obtain ⟨n, r, rfl⟩ : ∃ n r, q = n :: r := by
                  cases q with
                  | nil => simp [FSTree.lookup] at hq
                  | cons n r => exact ⟨n, r, rfl⟩
                have hqsome : (FSTree.lookup (FSTree.dir ss sm scs)
                    (n :: r)).isSome = true := by rw [hq]; rfl
                by_cases hqin : (n :: r) ∈ tasks1
                · -- the task was executed successfully
                  have hdone := execAll_tasks_done (FSTree.dir ss sm scs) tasks1 rep1
                    (by rw [hexec]; exact hok) hS1 (n :: r) hqin c m hq
                  rw [hexec] at hdone
                  -- survive cleanup
                  rw [hrep2] at hdone hcl
                  rw [cleanup_replica_dir] at hcl
                  injection hcl with hcl1 hcl2
                  have hpres := (cleanVisit_preserve
                    (FSTree.dir ss sm scs) cs2 [] (n :: r)
                    (by simpa using hqsome)).1 c m
                    (by rw [lookup_dir_eq_kids] at hdone; exact hdone)
                  have hr3 : FSTree.lookup rep3' (n :: r) =
                      some (.file c m) := by
                    rw [hrep3]
                    rw [lookup_dir_eq_kids]
                    have hcs3 : cs3 = (cleanVisit (FSTree.dir ss sm scs) []
                        cs2).1 := by
                      rw [hrep3] at hcl1
                      injection hcl1.symm with q1 q2 q3
                    rw [hcs3]
                    exact hpres
                  exact skipCond_self strict hash rep3' (n :: r) c m hr3
                · -- the file was skipped: transport the skip condition
                  have hskip1 : SkipCond strict hash rep1 (n :: r) c m := by
                    rcases hS2 (n :: r) c m hq with hin | hsk
                    · exact absurd hin hqin
                    · exact hsk
                  have hcond := hnotext (n :: r) hqsome hqin
                  have hpres2 := execAll_preserve (FSTree.dir ss sm scs) tasks1 rep1 (n :: r)
                    hcond
                  have hskip2 : SkipCond strict hash rep2 (n :: r) c m := by
                    refine skipCond_transport strict hash rep1 rep2 (n :: r)
                      c m ⟨?_, ?_⟩ hskip1
                    · intro c' m' hf
                      have := hpres2.1 c' m' hf
                      rw [hexec] at this
                      exact this
                    · intro s' mt' cs' hdd
                      obtain ⟨cs'', hc⟩ := hpres2.2.1 s' mt' cs' hdd
                      rw [hexec] at hc
                      exact ⟨cs'', hc⟩
                  -- transport through cleanup
                  rw [hrep2] at hcl
                  rw [cleanup_replica_dir] at hcl
                  injection hcl with hcl1 hcl2
                  have hcs3 : cs3 = (cleanVisit (FSTree.dir ss sm scs) []
                      cs2).1 := by
                    rw [hrep3] at hcl1
                    injection hcl1.symm with q1 q2 q3
                  have hcv := cleanVisit_preserve (FSTree.dir ss sm scs)
                    cs2 [] (n :: r) (by simpa using hqsome)
                  refine skipCond_transport strict hash rep2 rep3' (n :: r)
                    c m ⟨?_, ?_⟩ hskip2
                  · intro c' m' hf
                    rw [hrep3, lookup_dir_eq_kids, hcs3]
                    refine hcv.1 c' m' ?_
                    rw [hrep2] at hf
                    rw [lookup_dir_eq_kids] at hf
                    exact hf
                  · intro s' mt' cs' hdd
                    rw [hrep3, lookup_dir_eq_kids, hcs3]
                    refine hcv.2 s' mt' cs' ?_
                    rw [hrep2] at hdd
                    rw [lookup_dir_eq_kids] at hdd
                    exact hdd
              -- all source directories exist in rep3'
              have hdirAll : ∀ q s' m' ds', q ≠ [] →
                  FSTree.lookup (FSTree.dir ss sm scs) q =
                    some (.dir s' m' ds') →
                  (FSTree.lookup rep3' q).isSome = true := by
                intro q s' m' ds' hne hq
                obtain ⟨n, r, rfl⟩ : ∃ n r, q = n :: r := by
                  cases q with
                  | nil => exact absurd rfl hne
                  | cons n r => exact ⟨n, r, rfl⟩
                have hqsome : (FSTree.lookup (FSTree.dir ss sm scs)
                    (n :: r)).isSome = true := by rw [hq]; rfl
                have h1some := hS3 (n :: r) s' m' ds' hne hq
                have hqnotin : (n :: r) ∉ tasks1 := by
                  intro hin
                  obtain ⟨c', m', hf⟩ := hS1 (n :: r) hin
                  rw [hq] at hf
                  simp at hf
                have hcond := hnotext (n :: r) hqsome hqnotin
                have h2some : (FSTree.lookup rep2 (n :: r)).isSome = true := by
                  have := (execAll_preserve (FSTree.dir ss sm scs) tasks1 rep1 (n :: r)
                    hcond).2.2 h1some
                  rw [hexec] at this
                  exact this
                -- through cleanup: the surviving entry keeps its kind
                rw [hrep2] at hcl
                rw [cleanup_replica_dir] at hcl
                injection hcl with hcl1 hcl2
                have hcs3 : cs3 = (cleanVisit (FSTree.dir ss sm scs) []
                    cs2).1 := by
                  rw [hrep3] at hcl1
                  injection hcl1.symm with q1 q2 q3
                have hcv := cleanVisit_preserve (FSTree.dir ss sm scs)
                  cs2 [] (n :: r) (by simpa using hqsome)
                rw [hrep2, lookup_dir_eq_kids] at h2some
                cases he2 : lookupKids cs2 (n :: r) with
                | none => rw [he2] at h2some; simp at h2some
                | some e =>
                    rw [hrep3, lookup_dir_eq_kids, hcs3]
                    cases e with
                    | file ec em =>
                        rw [hcv.1 ec em he2]
                        rfl
                    | dir es em ecs =>
                        obtain ⟨cs'', hc⟩ := hcv.2 es em ecs he2
                        rw [hc]
                        rfl
              -- the second pass plans nothing
              have hready : planReady strict hash rep3' [] scs := by
                refine planReady_build strict hash (FSTree.dir ss sm scs)
                  rep3' hskipAll hdirAll scs [] hwfs ?_
                intro n t hm
                have hcl' := wf_mem_childLookup scs n t hwfs hm
                simp only [List.nil_append, FSTree.lookup, hcl']
              obtain ⟨evsD, hplanD⟩ := planDirs_noop strict hash rep3' scs []
                hready
              obtain ⟨evsF, hplanF⟩ := planFiles_noop strict hash scs [] rep3'
                (by
                  intro n c m hm
                  have hcl' := wf_mem_childLookup scs n (.file c m) hwfs hm
                  refine hskipAll ([] ++ [n]) c m ?_
                  simp only [List.nil_append, FSTree.lookup, hcl'])
              -- assemble the second pass
              refine ⟨rep3', (evsF ++ evsD) ++ [] ++ [], ?_⟩
              have hsd2 : sync_directory strict hash (FSTree.dir ss sm scs)
                  rep3' = some (rep3', [], evsF ++ evsD) := by
                rw [hrep3] at hplanF hplanD ⊢
                unfold sync_directory
                simp only [hplanF, hplanD]
                simp
              have h31 : (cleanup_replica (FSTree.dir ss sm scs) rep2).1 =
                  rep3' := by rw [hcl]
              have hcl3 : cleanup_replica (FSTree.dir ss sm scs) rep3' =
                  (rep3', []) := by
                have hi := cleanup_replica_idem (FSTree.dir ss sm scs) rep2
                rw [h31] at hi
                exact hi
              unfold synchronization
              rw [hsd2]
              simp only [execAll, hcl3]
              simp

/-- Witness for synchronization_idempotent: one fresh file is copied
on the first pass, and the second pass plans, copies and removes
nothing. -/
theorem synchronization_idempotent_witness :
    ∃ rep4 trace2, synchronization false (fun l => l.length)
      (.dir 0 0 [("a", .file [1, 2] 5)])
      (.dir 7 7 [("a", .file [1, 2] 5)]) =
      some (rep4, [], [], [], trace2) :=
  synchronization_idempotent false (fun l => l.length)
    (.dir 0 0 [("a", .file [1, 2] 5)]) (.dir 7 7 [])
    (.dir 7 7 [("a", .file [1, 2] 5)]) [["a"]] [true] []
    [Ev.checkEv ["a"], Ev.copyEv ["a"]]
    (by simp [wfTree, wfKids])
    (by simp [synchronization, sync_directory, planFiles, planDirs,
      fileNeedsCopy, modified_check, FSTree.lookup, childLookup, execAll,
      execTask, writeFile, cleanup_replica, cleanupKids, phaseFiles,
      phaseDirs, childUpdate, ensureDir, statPair])
    (by
      intro o ho
      simp only [List.mem_singleton] at ho
      exact ho)
